import Mathlib

/-!
Verification of the grammar-pattern core of the zh-sentence-learning pipeline.

Shallow embedding of:
  * src/zh_sentence_learning_pipeline/grammar/pattern_key.py  (canonical key codec)
  * src/zh_sentence_learning_pipeline/grammar/patterns.py     (pattern extraction)
  * src/zh_sentence_learning_pipeline/grammar/state.py        (personal grammar state)
  * scripts/build_prior_db.py                                 (global prior aggregation)

Python strings are modelled as lists of characters (`Str`), Python dicts as
insertion-ordered association lists, Python sets of strings as duplicate-free
lists, and functions that raise exceptions return `Option`.
-/

set_option maxHeartbeats 1000000

namespace ZhPipeline

/-- Python strings are modelled as lists of characters. -/
abbrev Str := List Char

/-! ## pattern_key.py : escaping -/

/-- One step of Python `str.replace` with a single-character needle: every
occurrence of `t` is replaced by `rep`; replacements are not rescanned. -/
def replaceChar (t : Char) (rep : Str) : Str → Str
  | [] => []
  | c :: cs => (if c = t then rep else [c]) ++ replaceChar t rep cs

/-- `_escape_component`: sequentially replaces, in `_ESCAPE_TABLE` insertion
order, backslash by double backslash, then bar, comma and equals by their
backslash-escaped forms. -/
def escapeComponent (s : Str) : Str :=
  replaceChar '=' ['\\', '=']
    (replaceChar ',' ['\\', ',']
      (replaceChar '|' ['\\', '|']
        (replaceChar '\\' ['\\', '\\'] s)))

/-- The four characters escaped by `_ESCAPE_TABLE`. -/
def isSpecial (c : Char) : Bool :=
  c = '\\' || c = '|' || c = ',' || c = '='

/-- Per-character form of the escaping. -/
def escChar (c : Char) : Str := if isSpecial c then ['\\', c] else [c]

/-- Character-by-character escaping; proved equal to `escapeComponent`. -/
def escAll : Str → Str
  | [] => []
  | c :: cs => escChar c ++ escAll cs

theorem replaceChar_append (t : Char) (rep a b : Str) :
    replaceChar t rep (a ++ b) = replaceChar t rep a ++ replaceChar t rep b := by
  induction a with
  | nil => rfl
  | cons c cs ih => simp [replaceChar, ih]

theorem escapeComponent_cons (c : Char) (cs : Str) :
    escapeComponent (c :: cs) = escChar c ++ escapeComponent cs := by
  by_cases h1 : c = '\\'
  · subst h1
    simp [escapeComponent, replaceChar, replaceChar_append, escChar, isSpecial]
  · by_cases h2 : c = '|'
    · subst h2
      simp [escapeComponent, replaceChar, replaceChar_append, escChar, isSpecial]
    · by_cases h3 : c = ','
      · subst h3
        simp [escapeComponent, replaceChar, replaceChar_append, escChar, isSpecial]
      · by_cases h4 : c = '='
        · subst h4
          simp [escapeComponent, replaceChar, replaceChar_append, escChar, isSpecial]
        · simp [escapeComponent, replaceChar, replaceChar_append, escChar, isSpecial,
            h1, h2, h3, h4]

theorem escapeComponent_eq_escAll (s : Str) : escapeComponent s = escAll s := by
  induction s with
  | nil => rfl
  | cons c cs ih => rw [escapeComponent_cons, ih]; rfl

/-! ## pattern_key.py : serialization -/

/-- Python `sep.join` for a single-character separator. -/
def joinSep (sep : Char) : List Str → Str
  | [] => []
  | [x] => x
  | x :: xs => x ++ sep :: joinSep sep xs

/-- One `k=v` item of the params CSV. -/
def escPair (kv : Str × Str) : Str :=
  escapeComponent kv.1 ++ '=' :: escapeComponent kv.2

/-- The serialization of `PatternKey.to_string` (after its validation):
`family|a=<anchors_csv>|p=<params_csv>`. -/
def keyString (family : Str) (anchors : List Str) (params : List (Str × Str)) : Str :=
  family ++ '|' :: 'a' :: '=' :: joinSep ',' (anchors.map escapeComponent)
    ++ '|' :: 'p' :: '=' :: joinSep ',' (params.map escPair)

/-- Python `str.strip()` (whitespace from both ends). -/
def pyStrip (s : Str) : Str :=
  ((s.dropWhile Char.isWhitespace).reverse.dropWhile Char.isWhitespace).reverse

/-- Ordering used by `_normalize_params`: compare items by parameter name only
(`items.sort(key=lambda kv: kv[0])`). -/
def paramLE (a b : Str × Str) : Prop := a.1 ≤ b.1

instance : DecidableRel paramLE := fun a b => inferInstanceAs (Decidable (a.1 ≤ b.1))

instance : IsTotal (Str × Str) paramLE := ⟨fun a b => le_total a.1 b.1⟩

instance : IsTrans (Str × Str) paramLE := ⟨fun _ _ _ h1 h2 => le_trans h1 h2⟩

/-- `_normalize_params`: strip every name, fail (`ValueError`) if a stripped
name is empty, and stably sort the items by name. -/
def normalizeParams (params : List (Str × Str)) : Option (List (Str × Str)) :=
  let items := params.map fun kv => (pyStrip kv.1, kv.2)
  if items.all fun kv => !kv.1.isEmpty then
    some (List.insertionSort paramLE items)
  else none

/-- Total variant of `_normalize_params` (no emptiness check). -/
def normalizeParamsT (params : List (Str × Str)) : List (Str × Str) :=
  List.insertionSort paramLE (params.map fun kv => (pyStrip kv.1, kv.2))

/-- `make_key` composed with `PatternKey.to_string`; `none` models the
`ValueError`s raised for an empty stripped param name or a family containing
the bar separator. -/
def makeKey (family : Str) (anchors : List Str) (params : List (Str × Str)) :
    Option Str :=
  (normalizeParams params).bind fun ps =>
    if '|' ∈ family then none else some (keyString family anchors ps)

/-- Total key builder used by the family-specific helpers, all of whose
families and parameter names pass the `make_key` validations. -/
def mkKeyT (family : Str) (anchors : List Str) (params : List (Str × Str)) : Str :=
  keyString family anchors (normalizeParamsT params)

theorem normalizeParams_eq_some (params : List (Str × Str))
    (h : ∀ kv ∈ params, pyStrip kv.1 ≠ []) :
    normalizeParams params = some (normalizeParamsT params) := by
  unfold normalizeParams normalizeParamsT
  have hall : (params.map fun kv => (pyStrip kv.1, kv.2)).all
      (fun kv => !kv.1.isEmpty) = true := by
    rw [List.all_eq_true]
    intro kv hkv
    rcases List.mem_map.1 hkv with ⟨kv0, hkv0, rfl⟩
    simpa [List.isEmpty_iff] using h kv0 hkv0
  simp [hall]

theorem makeKey_eq_some (family : Str) (anchors : List Str)
    (params : List (Str × Str)) (hf : '|' ∉ family)
    (h : ∀ kv ∈ params, pyStrip kv.1 ≠ []) :
    makeKey family anchors params = some (mkKeyT family anchors params) := by
  unfold makeKey mkKeyT
  rw [normalizeParams_eq_some params h]
  simp only [Option.some_bind, if_neg hf]

/-! ## pattern_key.py : family extraction -/

/-- Split at the first occurrence of `sep` (escape-blind), as Python
`s.split(sep, 1)` does. -/
def splitOnceAt (sep : Char) : Str → Str × Option Str
  | [] => ([], none)
  | c :: cs =>
    if c = sep then ([], some cs)
    else
      let p := splitOnceAt sep cs
      (c :: p.1, p.2)

/-- `family_from_key`: `"unknown"` for the empty key, else the part of the key
before the first bar. -/
def familyFromKey (s : Str) : Str :=
  if s.isEmpty then "unknown".data else (splitOnceAt '|' s).1

theorem splitOnceAt_append (sep : Char) (a r : Str) (h : sep ∉ a) :
    splitOnceAt sep (a ++ sep :: r) = (a, some r) := by
  induction a with
  | nil => simp [splitOnceAt]
  | cons c cs ih =>
    have hc : c ≠ sep := fun hc => h (hc ▸ List.mem_cons_self c cs)
    have hcs : sep ∉ cs := fun hm => h (List.mem_cons_of_mem c hm)
    simp [splitOnceAt, hc, ih hcs]

/-! ## patterns.py : gap bucketing -/

/-- `_bucket_gap`. -/
def bucketGap (g : ℕ) : Str :=
  if g = 0 then "0".data
  else if g = 1 then "1".data
  else if g ≤ 3 then "2-3".data
  else if g ≤ 7 then "4-7".data
  else "8+".data

/-- The ordered list of gap-bucket labels. -/
def bucketLabels : List Str :=
  ["0".data, "1".data, "2-3".data, "4-7".data, "8+".data]

/-- Index of a gap's bucket among `bucketLabels`. -/
def bucketRank (g : ℕ) : ℕ :=
  if g = 0 then 0 else if g = 1 then 1 else if g ≤ 3 then 2 else if g ≤ 7 then 3 else 4

theorem bucketGap_eq_label (g : ℕ) :
    bucketGap g = bucketLabels.getD (bucketRank g) [] := by
  unfold bucketGap bucketRank bucketLabels
  split_ifs <;> rfl

/-! ## Decoding machinery for the codec (used to prove key injectivity) -/

/-- Split at the first occurrence of `sep` that is not part of a
backslash-escape pair, keeping the escapes of the left part intact. -/
def splitEsc (sep : Char) : Str → Str × Option Str
  | [] => ([], none)
  | c :: cs =>
    if c = '\\' then
      match cs with
      | [] => (['\\'], none)
      | d :: cs2 =>
        let p := splitEsc sep cs2
        ('\\' :: d :: p.1, p.2)
    else if c = sep then ([], some cs)
    else
      let p := splitEsc sep cs
      (c :: p.1, p.2)

/-- `a` contains no bare (unescaped) occurrence of `sep`: scanning from the
left, every backslash consumes the following character, and no unconsumed
character equals `sep`. -/
inductive BareFree (sep : Char) : Str → Prop
  | nil : BareFree sep []
  | esc (c : Char) (rest : Str) : BareFree sep rest → BareFree sep ('\\' :: c :: rest)
  | chr (c : Char) (rest : Str) : c ≠ '\\' → c ≠ sep → BareFree sep rest →
      BareFree sep (c :: rest)

theorem splitEsc_sep (sep : Char) (hsep : sep ≠ '\\') (r : Str) :
    splitEsc sep (sep :: r) = ([], some r) := by
  rw [splitEsc.eq_def]; simp [hsep]

theorem splitEsc_other (sep c : Char) (cs : Str) (hc : c ≠ '\\') (hs : c ≠ sep) :
    splitEsc sep (c :: cs) = (c :: (splitEsc sep cs).1, (splitEsc sep cs).2) := by
  rw [splitEsc.eq_def]; simp [hc, hs]

theorem splitEsc_escape (sep d : Char) (cs : Str) :
    splitEsc sep ('\\' :: d :: cs) =
      ('\\' :: d :: (splitEsc sep cs).1, (splitEsc sep cs).2) := by
  rw [splitEsc.eq_def]; simp

theorem splitEsc_append_sep (sep : Char) (hsep : sep ≠ '\\') (a r : Str)
    (h : BareFree sep a) : splitEsc sep (a ++ sep :: r) = (a, some r) := by
  induction h with
  | nil => simpa using splitEsc_sep sep hsep r
  | esc c rest _ ih => simp [splitEsc_escape, ih]
  | chr c rest hc hs _ ih => simp [splitEsc_other sep c _ hc hs, ih]

theorem splitEsc_no_sep (sep : Char) (a : Str) (h : BareFree sep a) :
    splitEsc sep a = (a, none) := by
  induction h with
  | nil => rfl
  | esc c rest _ ih => simp [splitEsc_escape, ih]
  | chr c rest hc hs _ ih => simp [splitEsc_other sep c _ hc hs, ih]

theorem bareFree_append (sep : Char) (a b : Str)
    (ha : BareFree sep a) (hb : BareFree sep b) : BareFree sep (a ++ b) := by
  induction ha with
  | nil => simpa using hb
  | esc c rest _ ih => exact BareFree.esc c _ ih
  | chr c rest hc hs _ ih => exact BareFree.chr c _ hc hs ih

theorem bareFree_escAll (sep : Char) (hsep : isSpecial sep = true) (s : Str) :
    BareFree sep (escAll s) := by
  induction s with
  | nil => exact BareFree.nil
  | cons c cs ih =>
    show BareFree sep (escChar c ++ escAll cs)
    unfold escChar
    by_cases hc : isSpecial c = true
    · simpa [hc] using BareFree.esc c _ ih
    · have hc1 : c ≠ '\\' := by rintro rfl; exact hc (by decide)
      have hc2 : c ≠ sep := by rintro rfl; exact hc hsep
      simpa [hc] using BareFree.chr c _ hc1 hc2 ih

theorem bareFree_joinSep (sep j : Char) (hj1 : j ≠ '\\') (hj2 : j ≠ sep)
    (xs : List Str) (h : ∀ x ∈ xs, BareFree sep x) :
    BareFree sep (joinSep j xs) := by
  induction xs with
  | nil => exact BareFree.nil
  | cons x xs ih =>
    cases xs with
    | nil => simpa [joinSep] using h x (by simp)
    | cons y ys =>
      show BareFree sep (x ++ j :: joinSep j (y :: ys))
      exact bareFree_append sep x _ (h x (by simp))
        (BareFree.chr j _ hj1 hj2 (ih (fun z hz => h z (List.mem_cons_of_mem x hz))))

/-- Prepend a string to the first piece of a split result. -/
def prependHead (pre : Str) : List Str → List Str
  | [] => [pre]
  | l :: ls => (pre ++ l) :: ls

/-- Split on every bare occurrence of `sep`, keeping escapes intact. -/
def splitEscAll (sep : Char) : Str → List Str
  | [] => [[]]
  | c :: cs =>
    if c = '\\' then
      match cs with
      | [] => [['\\']]
      | d :: cs2 => prependHead ['\\', d] (splitEscAll sep cs2)
    else if c = sep then [] :: splitEscAll sep cs
    else prependHead [c] (splitEscAll sep cs)

/-- Undo the escaping: every backslash-escape pair becomes its second
character. -/
def unescape : Str → Str
  | [] => []
  | c :: cs =>
    if c = '\\' then
      match cs with
      | [] => ['\\']
      | d :: cs2 => d :: unescape cs2
    else c :: unescape cs

theorem unescape_escape (d : Char) (cs : Str) :
    unescape ('\\' :: d :: cs) = d :: unescape cs := by
  rw [unescape.eq_def]; simp

theorem unescape_other (c : Char) (cs : Str) (hc : c ≠ '\\') :
    unescape (c :: cs) = c :: unescape cs := by
  rw [unescape.eq_def]; simp [hc]

theorem unescape_escAll (s : Str) : unescape (escAll s) = s := by
  induction s with
  | nil => rfl
  | cons c cs ih =>
    show unescape (escChar c ++ escAll cs) = c :: cs
    unfold escChar
    by_cases hc : isSpecial c = true
    · simp [hc, unescape_escape, ih]
    · have hc1 : c ≠ '\\' := by rintro rfl; exact hc (by decide)
      simp [hc, unescape_other _ _ hc1, ih]

theorem splitEscAll_sep (sep : Char) (hsep : sep ≠ '\\') (cs : Str) :
    splitEscAll sep (sep :: cs) = [] :: splitEscAll sep cs := by
  rw [splitEscAll.eq_def]; simp [hsep]

theorem splitEscAll_other (sep c : Char) (cs : Str) (hc : c ≠ '\\') (hs : c ≠ sep) :
    splitEscAll sep (c :: cs) = prependHead [c] (splitEscAll sep cs) := by
  rw [splitEscAll.eq_def]; simp [hc, hs]

theorem splitEscAll_escape (sep d : Char) (cs : Str) :
    splitEscAll sep ('\\' :: d :: cs) = prependHead ['\\', d] (splitEscAll sep cs) := by
  rw [splitEscAll.eq_def]; simp

theorem splitEscAll_of_bareFree (sep : Char) (a : Str) (h : BareFree sep a) :
    splitEscAll sep a = [a] := by
  induction h with
  | nil => rfl
  | esc c rest _ ih => simp [splitEscAll_escape, ih, prependHead]
  | chr c rest hc hs _ ih => simp [splitEscAll_other sep c _ hc hs, ih, prependHead]

theorem splitEscAll_append_sep (sep : Char) (hsep : sep ≠ '\\') (a r : Str)
    (h : BareFree sep a) :
    splitEscAll sep (a ++ sep :: r) = a :: splitEscAll sep r := by
  induction h with
  | nil => simpa using splitEscAll_sep sep hsep r
  | esc c rest _ ih => simp [splitEscAll_escape, ih, prependHead]
  | chr c rest hc hs _ ih => simp [splitEscAll_other sep c _ hc hs, ih, prependHead]

theorem splitEscAll_joinSep (sep : Char) (hsep : sep ≠ '\\') (xs : List Str)
    (hne : xs ≠ []) (h : ∀ x ∈ xs, BareFree sep x) :
    splitEscAll sep (joinSep sep xs) = xs := by
  induction xs with
  | nil => exact absurd rfl hne
  | cons x xs ih =>
    cases xs with
    | nil => simpa [joinSep] using splitEscAll_of_bareFree sep x (h x (by simp))
    | cons y ys =>
      show splitEscAll sep (x ++ sep :: joinSep sep (y :: ys)) = _
      rw [splitEscAll_append_sep sep hsep x _ (h x (by simp))]
      rw [ih (by simp) (fun z hz => h z (List.mem_cons_of_mem x hz))]

/-- One params-CSV item `k=v` decoded back to a pair. -/
def decodeItem (it : Str) : Option (Str × Str) :=
  match splitEsc '=' it with
  | (k, some v) => some (unescape k, unescape v)
  | (_, none) => none

/-- Decoder for serialized keys: recovers the family, the anchor list and the
normalized params list.  The two-character section markers `a=` / `p=` are
skipped positionally. -/
def decodeKey (s : Str) : Option (Str × List Str × List (Str × Str)) :=
  match splitOnceAt '|' s with
  | (_, none) => none
  | (fam, some rest1) =>
    match rest1 with
    | _ :: _ :: rest2 =>
      match splitEsc '|' rest2 with
      | (_, none) => none
      | (acsv, some rest3) =>
        match rest3 with
        | _ :: _ :: pcsv =>
          let anchors := if acsv.isEmpty then [] else (splitEscAll ',' acsv).map unescape
          match (if pcsv.isEmpty then some [] else (splitEscAll ',' pcsv).mapM decodeItem) with
          | none => none
          | some ps => some (fam, anchors, ps)
        | _ => none
    | _ => none

theorem decodeItem_escPair (kv : Str × Str) : decodeItem (escPair kv) = some kv := by
  unfold decodeItem escPair
  rw [escapeComponent_eq_escAll, escapeComponent_eq_escAll]
  rw [splitEsc_append_sep '=' (by decide) _ _ (bareFree_escAll '=' (by decide) kv.1)]
  simp [unescape_escAll]

theorem mapM_decodeItem_escPair (ps : List (Str × Str)) :
    (ps.map escPair).mapM decodeItem = some ps := by
  induction ps with
  | nil => rfl
  | cons kv rest ih =>
    simp only [List.map_cons, List.mapM_cons, decodeItem_escPair, ih]
    rfl

theorem escAll_ne_nil (a : Str) (h : a ≠ []) : escAll a ≠ [] := by
  cases a with
  | nil => exact absurd rfl h
  | cons c cs =>
    show escChar c ++ escAll cs ≠ []
    unfold escChar
    split <;> simp

theorem bareFree_anchorsCsv (as : List Str) :
    BareFree '|' (joinSep ',' (as.map escapeComponent)) := by
  refine bareFree_joinSep '|' ',' (by decide) (by decide) _ ?_
  intro x hx
  rcases List.mem_map.1 hx with ⟨a, _, rfl⟩
  rw [escapeComponent_eq_escAll]
  exact bareFree_escAll '|' (by decide) a

theorem bareFree_escPair (sep : Char) (hs1 : isSpecial sep = true)
    (hs2 : sep ≠ '=') (kv : Str × Str) : BareFree sep (escPair kv) := by
  unfold escPair
  rw [escapeComponent_eq_escAll, escapeComponent_eq_escAll]
  exact bareFree_append sep _ _ (bareFree_escAll sep hs1 kv.1)
    (BareFree.chr '=' _ (by decide) (fun h => hs2 h.symm) (bareFree_escAll sep hs1 kv.2))

/-- Round trip: decoding a serialized key recovers exactly the data that was
serialized, provided the family contains no bar and the anchor list is not the
single empty string (whose CSV collides with that of the empty anchor list). -/
theorem decodeKey_keyString (f : Str) (as : List Str) (ps : List (Str × Str))
    (hf : '|' ∉ f) (ha : as ≠ [[]]) :
    decodeKey (keyString f as ps) = some (f, as, ps) := by
  have hks : keyString f as ps = f ++ '|' :: ('a' :: '=' ::
      (joinSep ',' (as.map escapeComponent) ++ '|' :: 'p' :: '=' ::
        joinSep ',' (ps.map escPair))) := by
    simp [keyString]
  have hanch : (if (joinSep ',' (as.map escapeComponent)).isEmpty then ([] : List Str)
      else (splitEscAll ',' (joinSep ',' (as.map escapeComponent))).map unescape) = as := by
    cases as with
    | nil => simp [joinSep]
    | cons a rest =>
      have hne : joinSep ',' ((a :: rest).map escapeComponent) ≠ [] := by
        cases rest with
        | nil =>
          have ha' : a ≠ [] := by rintro rfl; exact ha rfl
          simpa [joinSep, escapeComponent_eq_escAll] using escAll_ne_nil a ha'
        | cons b bs => simp [joinSep]
      rw [if_neg (by simpa [List.isEmpty_iff] using hne)]
      rw [splitEscAll_joinSep ',' (by decide) _ (by simp) ?_]
      · rw [List.map_map]
        have : unescape ∘ escapeComponent = id := by
          funext x
          simp [Function.comp, escapeComponent_eq_escAll, unescape_escAll]
        simp [this]
      · intro x hx
        rcases List.mem_map.1 hx with ⟨y, _, rfl⟩
        rw [escapeComponent_eq_escAll]
        exact bareFree_escAll ',' (by decide) y
  have hpar : (if (joinSep ',' (ps.map escPair)).isEmpty then some ([] : List (Str × Str))
      else (splitEscAll ',' (joinSep ',' (ps.map escPair))).mapM decodeItem) = some ps := by
    cases ps with
    | nil => simp [joinSep]
    | cons kv rest =>
      have hne : joinSep ',' ((kv :: rest).map escPair) ≠ [] := by
        cases rest with
        | nil =>
          have : escPair kv ≠ [] := by
            unfold escPair
            rw [escapeComponent_eq_escAll]
            cases h : escAll kv.1 <;> simp
          simpa [joinSep]
        | cons b bs => simp [joinSep]
      rw [if_neg (by simpa [List.isEmpty_iff] using hne)]
      rw [splitEscAll_joinSep ',' (by decide) _ (by simp) ?_]
      · exact mapM_decodeItem_escPair (kv :: rest)
      · intro x hx
        rcases List.mem_map.1 hx with ⟨y, _, rfl⟩
        exact bareFree_escPair ',' (by decide) (by decide) y
  have hsp := splitEsc_append_sep '|' (by decide)
    (joinSep ',' (as.map escapeComponent))
    ('p' :: '=' :: joinSep ',' (ps.map escPair)) (bareFree_anchorsCsv as)
  unfold decodeKey
  rw [hks, splitOnceAt_append '|' f _ hf]
  simp only [hsp, hanch, hpar]

/-- Injectivity of the serializer on validated inputs. -/
theorem keyString_inj (f1 f2 : Str) (as1 as2 : List Str)
    (ps1 ps2 : List (Str × Str)) (hf1 : '|' ∉ f1) (hf2 : '|' ∉ f2)
    (ha1 : as1 ≠ [[]]) (ha2 : as2 ≠ [[]])
    (h : keyString f1 as1 ps1 = keyString f2 as2 ps2) :
    f1 = f2 ∧ as1 = as2 ∧ ps1 = ps2 := by
  have h1 := decodeKey_keyString f1 as1 ps1 hf1 ha1
  have h2 := decodeKey_keyString f2 as2 ps2 hf2 ha2
  rw [h, h2] at h1
  injection h1 with h1
  injection h1 with hfa h1
  injection h1 with hanch hps
  exact ⟨hfa.symm, hanch.symm, hps.symm⟩

/-- The params list after name-stripping, before sorting. -/
def strippedParams (ps : List (Str × Str)) : List (Str × Str) :=
  ps.map fun kv => (pyStrip kv.1, kv.2)

theorem normalizeParamsT_eq_sort (ps : List (Str × Str)) :
    normalizeParamsT ps = List.insertionSort paramLE (strippedParams ps) := rfl

/-- Two lists sorted by parameter name, each with duplicate-free names, that
have the same members are equal. -/
theorem sorted_nodup_ext (l1 : List (Str × Str)) :
    ∀ l2 : List (Str × Str), l1.Sorted paramLE → l2.Sorted paramLE →
      (l1.map Prod.fst).Nodup → (l2.map Prod.fst).Nodup →
      (∀ x, x ∈ l1 ↔ x ∈ l2) → l1 = l2 := by
  induction l1 with
  | nil =>
    intro l2 _ _ _ _ hm
    cases l2 with
    | nil => rfl
    | cons b t2 => exact absurd ((hm b).2 (by simp)) (by simp)
  | cons a t1 ih =>
    intro l2 hs1 hs2 hn1 hn2 hm
    cases l2 with
    | nil => exact absurd ((hm a).1 (by simp)) (by simp)
    | cons b t2 =>
      have hab : a = b := by
        have ha2 : a ∈ b :: t2 := (hm a).1 (by simp)
        have hb1 : b ∈ a :: t1 := (hm b).2 (by simp)
        rcases List.mem_cons.1 ha2 with h | ha2t
        · exact h
        rcases List.mem_cons.1 hb1 with h | hb1t
        · exact h.symm
        have h1 : paramLE a b := (List.sorted_cons.1 hs1).1 b hb1t
        have h2 : paramLE b a := (List.sorted_cons.1 hs2).1 a ha2t
        have hfst : a.1 = b.1 := le_antisymm h1 h2
        exfalso
        have : b.1 ∈ t2.map Prod.fst := hfst ▸ List.mem_map_of_mem Prod.fst ha2t
        exact (List.nodup_cons.1 hn2).1 this
      subst hab
      have hmt : ∀ x, x ∈ t1 ↔ x ∈ t2 := by
        intro x
        constructor
        · intro hx
          rcases List.mem_cons.1 ((hm x).1 (List.mem_cons_of_mem a hx)) with h | h
          · exfalso
            subst h
            exact (List.nodup_cons.1 hn1).1 (List.mem_map_of_mem Prod.fst hx)
          · exact h
        · intro hx
          rcases List.mem_cons.1 ((hm x).2 (List.mem_cons_of_mem a hx)) with h | h
          · exfalso
            subst h
            exact (List.nodup_cons.1 hn2).1 (List.mem_map_of_mem Prod.fst hx)
          · exact h
      rw [ih t2 (List.sorted_cons.1 hs1).2 (List.sorted_cons.1 hs2).2
        (List.nodup_cons.1 hn1).2 (List.nodup_cons.1 hn2).2 hmt]

theorem mem_normalizeParamsT (ps : List (Str × Str)) (x : Str × Str) :
    x ∈ normalizeParamsT ps ↔ x ∈ strippedParams ps := by
  rw [normalizeParamsT_eq_sort]
  exact (List.perm_insertionSort paramLE (strippedParams ps)).mem_iff

theorem sorted_normalizeParamsT (ps : List (Str × Str)) :
    (normalizeParamsT ps).Sorted paramLE := by
  rw [normalizeParamsT_eq_sort]
  exact List.sorted_insertionSort paramLE (strippedParams ps)

theorem nodup_fst_normalizeParamsT (ps : List (Str × Str))
    (h : ((strippedParams ps).map Prod.fst).Nodup) :
    ((normalizeParamsT ps).map Prod.fst).Nodup := by
  rw [normalizeParamsT_eq_sort]
  exact (((List.perm_insertionSort paramLE (strippedParams ps)).map Prod.fst).nodup_iff).2 h

/-- C1 (amended): with no empty-string-only anchor list and stripped,
pairwise-distinct, nonempty parameter names, two `make_key` strings are equal
iff the family, the anchor sequences and the stripped parameter sets agree. -/
theorem claim_C1 (f1 f2 : Str) (as1 as2 : List Str) (ps1 ps2 : List (Str × Str))
    (hf1 : '|' ∉ f1) (hf2 : '|' ∉ f2) (ha1 : as1 ≠ [[]]) (ha2 : as2 ≠ [[]])
    (hp1 : ∀ kv ∈ ps1, pyStrip kv.1 ≠ []) (hp2 : ∀ kv ∈ ps2, pyStrip kv.1 ≠ [])
    (hn1 : ((strippedParams ps1).map Prod.fst).Nodup)
    (hn2 : ((strippedParams ps2).map Prod.fst).Nodup) :
    makeKey f1 as1 ps1 = makeKey f2 as2 ps2 ↔
      f1 = f2 ∧ as1 = as2 ∧
        ∀ kv, kv ∈ strippedParams ps1 ↔ kv ∈ strippedParams ps2 := by
  rw [makeKey_eq_some f1 as1 ps1 hf1 hp1, makeKey_eq_some f2 as2 ps2 hf2 hp2]
  unfold mkKeyT
  constructor
  · intro h
    injection h with h
    obtain ⟨hfa, hanch, hps⟩ := keyString_inj f1 f2 as1 as2 _ _ hf1 hf2 ha1 ha2 h
    refine ⟨hfa, hanch, fun kv => ?_⟩
    rw [← mem_normalizeParamsT, ← mem_normalizeParamsT, hps]
  · rintro ⟨rfl, rfl, hmem⟩
    have : normalizeParamsT ps1 = normalizeParamsT ps2 := by
      refine sorted_nodup_ext _ _ (sorted_normalizeParamsT ps1)
        (sorted_normalizeParamsT ps2) (nodup_fst_normalizeParamsT ps1 hn1)
        (nodup_fst_normalizeParamsT ps2 hn2) ?_
      intro x
      rw [mem_normalizeParamsT, mem_normalizeParamsT]
      exact hmem x
    rw [this]

/-- C1 as stated fails: parameter names are whitespace-stripped before
serialization, so raw (name, value) sets that differ only by surrounding
whitespace collide; and the empty anchor list collides with the
single-empty-anchor list. -/
theorem claim_C1_counterexample :
    makeKey "f".data [] [((" a").data, "1".data)] =
        makeKey "f".data [] [("a".data, "1".data)] ∧
      ((" a").data, "1".data) ≠ ("a".data, "1".data) ∧
      makeKey "f".data [[]] [] = makeKey "f".data [] [] ∧
      ([[]] : List Str) ≠ [] := by
  refine ⟨by decide, by decide, by decide, by decide⟩

theorem claim_C1_witness :
    makeKey "f".data [] [("b".data, "1".data), ("a".data, "2".data)] =
      makeKey "f".data [] [("a".data, "2".data), ("b".data, "1".data)] := by
  have h := claim_C1 "f".data "f".data [] []
    [("b".data, "1".data), ("a".data, "2".data)]
    [("a".data, "2".data), ("b".data, "1".data)]
    (by decide) (by decide) (by decide) (by decide)
    (by decide) (by decide) (by decide) (by decide)
  refine h.2 ⟨rfl, rfl, ?_⟩
  intro kv
  have e1 : strippedParams [("b".data, "1".data), ("a".data, "2".data)] =
      [("b".data, "1".data), ("a".data, "2".data)] := by decide
  have e2 : strippedParams [("a".data, "2".data), ("b".data, "1".data)] =
      [("a".data, "2".data), ("b".data, "1".data)] := by decide
  rw [e1, e2]
  simp only [List.mem_cons, List.not_mem_nil, or_false]
  tauto

/-- C6: the family segment of any key the codec produces decodes back to the
exact family string, for every anchor list and params mapping; a family
containing the bar separator is rejected. -/
theorem claim_C6 (f : Str) (as : List Str) (ps : List (Str × Str)) :
    (('|' ∉ f) → ∀ s, makeKey f as ps = some s → familyFromKey s = f) ∧
      (('|' ∈ f) → makeKey f as ps = none) := by
  constructor
  · intro hf s hs
    unfold makeKey at hs
    rcases hnp : normalizeParams ps with _ | ps2
    · rw [hnp] at hs; exact absurd hs (by simp)
    · rw [hnp] at hs
      simp only [Option.some_bind, if_neg hf] at hs
      injection hs with hs
      subst hs
      have hks : keyString f as ps2 = f ++ '|' :: ('a' :: '=' ::
          (joinSep ',' (as.map escapeComponent) ++ '|' :: 'p' :: '=' ::
            joinSep ',' (ps2.map escPair))) := by
        simp [keyString]
      unfold familyFromKey
      rw [hks]
      rw [if_neg (by simp [List.isEmpty_iff])]
      rw [splitOnceAt_append '|' f _ hf]
  · intro hf
    unfold makeKey
    rcases normalizeParams ps with _ | ps2
    · rfl
    · simp only [Option.some_bind, if_pos hf]

theorem claim_C6_witness :
    familyFromKey (mkKeyT "anch_pair".data ["a|b".data, "c,d=e".data]
        [("gap".data, "2-3".data)]) = "anch_pair".data ∧
      makeKey "a|b".data [] [] = none := by
  constructor
  · exact (claim_C6 "anch_pair".data ["a|b".data, "c,d=e".data]
      [("gap".data, "2-3".data)]).1 (by decide) _
      (makeKey_eq_some _ _ _ (by decide) (by decide))
  · exact (claim_C6 "a|b".data [] []).2 (by decide)

/-- Rank of a gap-bucket label in the bucket order. -/
def labelRank (s : Str) : ℕ :=
  if s = "0".data then 0
  else if s = "1".data then 1
  else if s = "2-3".data then 2
  else if s = "4-7".data then 3
  else 4

/-- C9: the gap-bucket function is total on naturals with the five stated
values, the labels are pairwise distinct (so the preimages partition the
naturals), and the bucket never moves backwards as the gap grows. -/
theorem claim_C9 :
    (∀ g : ℕ, bucketGap g ∈ bucketLabels) ∧
      bucketGap 0 = "0".data ∧
      bucketGap 1 = "1".data ∧
      (∀ g : ℕ, 2 ≤ g → g ≤ 3 → bucketGap g = "2-3".data) ∧
      (∀ g : ℕ, 4 ≤ g → g ≤ 7 → bucketGap g = "4-7".data) ∧
      (∀ g : ℕ, 8 ≤ g → bucketGap g = "8+".data) ∧
      bucketLabels.Pairwise (· ≠ ·) ∧
      (∀ g h : ℕ, g ≤ h → labelRank (bucketGap g) ≤ labelRank (bucketGap h)) := by
  refine ⟨?_, rfl, rfl, ?_, ?_, ?_, by decide, ?_⟩
  · intro g
    unfold bucketGap bucketLabels
    split_ifs <;> simp
  · intro g h1 h2
    unfold bucketGap
    split_ifs <;> first | rfl | omega
  · intro g h1 h2
    unfold bucketGap
    split_ifs <;> first | rfl | omega
  · intro g h1
    unfold bucketGap
    split_ifs <;> first | rfl | omega
  · intro g h hle
    have hr : ∀ n : ℕ, labelRank (bucketGap n) = bucketRank n := by
      intro n
      unfold bucketGap bucketRank
      split_ifs <;> decide
    rw [hr, hr]
    unfold bucketRank
    split_ifs <;> omega

theorem claim_C9_witness :
    bucketGap 2 = "2-3".data ∧ bucketGap 7 = "4-7".data ∧
      bucketGap 100 = "8+".data := by
  exact ⟨claim_C9.2.2.2.1 2 (by decide) (by decide),
    claim_C9.2.2.2.2.1 7 (by decide) (by decide),
    claim_C9.2.2.2.2.2.1 100 (by decide)⟩

/-! ## pattern_key.py : family-specific helpers -/

/-- Python `str(n)` for an int parameter value. -/
def natStr (n : ℕ) : Str := (toString n).data

/-- `key_skeleton`. -/
def keySkeleton (skeletonSig : Str) (anchorsInOrder : List Str) : Str :=
  mkKeyT "skel".data anchorsInOrder [("sig".data, skeletonSig)]

/-- `key_compressed_skeleton`. -/
def keyCompressedSkeleton (skeletonSig : Str) (anchorsInOrder : List Str) : Str :=
  mkKeyT "cskel".data anchorsInOrder [("sig".data, skeletonSig)]

/-- `key_anchor_pair`. -/
def keyAnchorPair (a1 a2 : Str) (gapBucket : Str) : Str :=
  mkKeyT "anch_pair".data [a1, a2] [("gap".data, gapBucket)]

/-- `key_anchor_window`. -/
def keyAnchorWindow (windowSig : Str) (anchorsInOrder : List Str)
    (leftLen rightLen : ℕ) : Str :=
  mkKeyT "anch_win".data anchorsInOrder
    [("l".data, natStr leftLen), ("r".data, natStr rightLen), ("sig".data, windowSig)]

/-- `key_anchor_skip`: the family is `a_skip` followed by the anchor count. -/
def keyAnchorSkip (anchorsInOrder : List Str) (maxJump : ℕ) : Str :=
  mkKeyT ("a_skip".data ++ natStr anchorsInOrder.length) anchorsInOrder
    [("max_jump".data, natStr maxJump)]

/-- `key_anchor_sequence`. -/
def keyAnchorSequence (anchorsInOrder : List Str) : Str :=
  mkKeyT "anch_seq".data anchorsInOrder []

/-- `key_token_ngram`. -/
def keyTokenNgram (slotSig : Str) (anchorsInOrder : List Str) (n : ℕ) : Str :=
  mkKeyT "tok_ng".data anchorsInOrder [("n".data, natStr n), ("sig".data, slotSig)]

/-- `key_anchor_span`. -/
def keyAnchorSpan (a1 tail : Str) (gapBucket : Str) : Str :=
  mkKeyT "anch_span".data [a1, tail] [("gap".data, gapBucket)]

/-- `key_span_signature`. -/
def keySpanSignature (a1 tail : Str) (gapBucket : Str) (kA kX : ℕ) : Str :=
  mkKeyT "span_sig".data [a1, tail]
    [("gap".data, gapBucket), ("kA".data, natStr kA), ("kX".data, natStr kX)]

/-! ## patterns.py : extraction -/

/-- An extraction result: canonical key plus literal realization. -/
structure Pattern where
  patternKey : Str
  realization : Str
deriving DecidableEq

/-- Membership in the anchor set (a Python `set` of strings, modelled as a
list). -/
def isAnchor (anchors : List Str) (t : Str) : Bool := decide (t ∈ anchors)

/-- Python slice `tokens[a:b]`. -/
def slice (tokens : List Str) (a b : ℕ) : List Str := (tokens.drop a).take (b - a)

/-- `" ".join`. -/
def joinSpace (tokens : List Str) : Str := joinSep ' ' tokens

/-- `_anchor_sequence`: the anchor occurrences of the sentence, as
(token, index) pairs in increasing index order. -/
def anchorSequence (tokens : List Str) (anchors : List Str) : List (Str × ℕ) :=
  ((tokens.enum).filter fun p => isAnchor anchors p.2).map fun p => (p.2, p.1)

/-- The numeric-token test `\d+(\.\d+)?` (full match). -/
def isNumTok (t : Str) : Bool :=
  let ds := t.takeWhile Char.isDigit
  let rest := t.dropWhile Char.isDigit
  !ds.isEmpty &&
    (rest.isEmpty ||
      match rest with
      | '.' :: ds2 => !ds2.isEmpty && ds2.all Char.isDigit
      | _ => false)

/-- The per-token mapping of `skeletonize`. -/
def skelToken (anchors : List Str) (t : Str) : Str :=
  if isAnchor anchors t then t
  else if isNumTok t then "<NUM>".data
  else if t.length = 1 then "<C1>".data
  else if t.length = 2 then "<C2>".data
  else "<W>".data

/-- `skeletonize`. -/
def skeletonize (tokens : List Str) (anchors : List Str) : Str :=
  joinSpace (tokens.map (skelToken anchors))

/-- The `<SPAN>` placeholder of compressed skeletons. -/
def spanTok : Str := "<SPAN>".data

/-- The main loop of `skeletonize_compressed`: anchors pass through, each
maximal run of non-anchor tokens collapses to one `<SPAN>`. -/
def cskelCore (anchors : List Str) : List Str → Bool → List Str
  | [], _ => []
  | t :: ts, inSpan =>
    if isAnchor anchors t then t :: cskelCore anchors ts false
    else if inSpan then cskelCore anchors ts true
    else spanTok :: cskelCore anchors ts true

/-- `skeletonize_compressed`: collapse non-anchor runs, then trim leading and
trailing `<SPAN>` placeholders. -/
def skeletonizeCompressed (tokens : List Str) (anchors : List Str) : Str :=
  let out := cskelCore anchors tokens false
  let out1 := out.dropWhile fun x => decide (x = spanTok)
  let out2 := (out1.reverse.dropWhile fun x => decide (x = spanTok)).reverse
  joinSpace out2

/-- The contiguous n-token windows of the sentence (`ngrams`). -/
def ngramWindows (tokens : List Str) (n : ℕ) : List (List Str) :=
  (List.range (tokens.length + 1 - n)).map fun i => (tokens.drop i).take n

/-- The token n-gram family: every window of length 2..maxN that contains an
anchor, with non-anchors replaced by the `<X>` slot in the signature. -/
def tokNgramPatterns (tokens : List Str) (anchors : List Str) (maxN : ℕ) :
    List Pattern :=
  (List.range' 2 (maxN - 1)).flatMap fun n =>
    (ngramWindows tokens n).filterMap fun ng =>
      if ng.any (isAnchor anchors) then
        some ⟨keyTokenNgram
            (joinSpace (ng.map fun t => if isAnchor anchors t then t else "<X>".data))
            (ng.filter (isAnchor anchors)) n,
          joinSpace ng⟩
      else none

/-- The anchor-window family: for every anchor occurrence, up to two tokens of
context on each side, with non-anchors replaced by `<X>` in the signature. -/
def anchorWindowPatterns (tokens : List Str) (anchors : List Str) : List Pattern :=
  ((tokens.enum).filter fun p => isAnchor anchors p.2).map fun p =>
    let i := p.1
    let t := p.2
    let left := slice tokens (i - 2) i
    let right := slice tokens (i + 1) (i + 3)
    let sigTokens := (left ++ [t] ++ right).map fun x =>
      if isAnchor anchors x then x else "<X>".data
    ⟨keyAnchorWindow (joinSpace sigTokens) (sigTokens.filter (isAnchor anchors))
        left.length right.length,
      joinSpace (left ++ [t] ++ right)⟩

/-- Inner loop of `_anchor_pair_patterns` for a fixed earlier anchor: walk the
later anchor occurrences in index order and break as soon as the gap exceeds
the bound. -/
def anchorPairInner (tokens : List Str) (maxGap : ℕ) (a1 : Str) (i1 : ℕ) :
    List (Str × ℕ) → List Pattern
  | [] => []
  | (a2, i2) :: rest =>
    if maxGap < i2 - i1 - 1 then []
    else ⟨keyAnchorPair a1 a2 (bucketGap (i2 - i1 - 1)),
        joinSpace (slice tokens i1 (i2 + 1))⟩ ::
      anchorPairInner tokens maxGap a1 i1 rest

/-- Outer loop of `_anchor_pair_patterns`. -/
def anchorPairLoop (tokens : List Str) (maxGap : ℕ) :
    List (Str × ℕ) → List Pattern
  | [] => []
  | (a1, i1) :: rest =>
    anchorPairInner tokens maxGap a1 i1 rest ++ anchorPairLoop tokens maxGap rest

/-- `_anchor_pair_patterns`. -/
def anchorPairPatterns (tokens : List Str) (anchors : List Str) (maxGap : ℕ) :
    List Pattern :=
  anchorPairLoop tokens maxGap (anchorSequence tokens anchors)

/-- `_anchor_sequence_signature`: one pattern keyed by the full ordered anchor
list, when the sentence has at least two anchor occurrences. -/
def anchorSequenceSignature (tokens : List Str) (anchors : List Str) :
    List Pattern :=
  let seq := tokens.filter (isAnchor anchors)
  if seq.length < 2 then []
  else [⟨keyAnchorSequence seq, joinSpace seq⟩]

/-- The end marker used when no later anchor is found. -/
def endMarker : Str := "<END>".data

/-- The forward scan of `_anchor_span_patterns`: the first position in
`range(i+1, min(n, i+1+max_gap))` holding an anchor. -/
def spanTailPos (tokens : List Str) (anchors : List Str) (i maxGap : ℕ) :
    Option ℕ :=
  (List.range' (i + 1) (min tokens.length (i + 1 + maxGap) - (i + 1))).find?
    fun j => isAnchor anchors (tokens.getD j [])

/-- `_anchor_span_patterns`. -/
def anchorSpanPatterns (tokens : List Str) (anchors : List Str) (maxGap : ℕ) :
    List Pattern :=
  ((tokens.enum).filter fun p => isAnchor anchors p.2).map fun p =>
    let i := p.1
    let t := p.2
    let jLimit := min tokens.length (i + 1 + maxGap)
    match spanTailPos tokens anchors i maxGap with
    | some tp =>
      ⟨keyAnchorSpan t (tokens.getD tp []) (bucketGap (tp - i - 1)),
        joinSpace (slice tokens i (tp + 1))⟩
    | none =>
      ⟨keyAnchorSpan t endMarker (bucketGap (min maxGap (tokens.length - i - 1))),
        joinSpace (slice tokens i jLimit)⟩

/-- `_span_signature_patterns`. -/
def spanSignaturePatterns (tokens : List Str) (anchors : List Str) (maxGap : ℕ) :
    List Pattern :=
  ((tokens.enum).filter fun p => isAnchor anchors p.2).map fun p =>
    let i := p.1
    let t := p.2
    let jLimit := min tokens.length (i + 1 + maxGap)
    let tailEnd := match spanTailPos tokens anchors i maxGap with
      | some tp => tp
      | none => jLimit
    let tail := match spanTailPos tokens anchors i maxGap with
      | some tp => tokens.getD tp []
      | none => endMarker
    let inside := slice tokens (i + 1) tailEnd
    let kA := (inside.filter (isAnchor anchors)).length
    let kX := inside.length - kA
    let relEnd := match spanTailPos tokens anchors i maxGap with
      | some tp => tp + 1
      | none => jLimit
    ⟨keySpanSignature t tail (bucketGap inside.length) kA kX,
      joinSpace (slice tokens i relEnd)⟩

/-- Innermost loop of the 3-anchor skip-grams. -/
def skip3InnerC (maxJump : ℕ) (a1 a2 : Str) (i2 : ℕ) :
    List (Str × ℕ) → List Pattern
  | [] => []
  | (a3, i3) :: rest =>
    if maxJump < i3 - i2 then []
    else ⟨keyAnchorSkip [a1, a2, a3] maxJump,
        a1 ++ " ... ".data ++ a2 ++ " ... ".data ++ a3⟩ ::
      skip3InnerC maxJump a1 a2 i2 rest

/-- Middle loop of the 3-anchor skip-grams. -/
def skip3InnerB (maxJump : ℕ) (a1 : Str) (i1 : ℕ) :
    List (Str × ℕ) → List Pattern
  | [] => []
  | (a2, i2) :: rest =>
    if maxJump < i2 - i1 then []
    else skip3InnerC maxJump a1 a2 i2 rest ++ skip3InnerB maxJump a1 i1 rest

/-- Outer loop of the 3-anchor skip-grams. -/
def skip3Loop (maxJump : ℕ) : List (Str × ℕ) → List Pattern
  | [] => []
  | (a1, i1) :: rest => skip3InnerB maxJump a1 i1 rest ++ skip3Loop maxJump rest

/-- Inner loop of the 2-anchor skip-grams (breaks past the jump bound). -/
def skip2Inner (maxJump : ℕ) (a1 : Str) (i1 : ℕ) :
    List (Str × ℕ) → List Pattern
  | [] => []
  | (a2, i2) :: rest =>
    if maxJump < i2 - i1 then []
    else ⟨keyAnchorSkip [a1, a2] maxJump, a1 ++ " ... ".data ++ a2⟩ ::
      skip2Inner maxJump a1 i1 rest

/-- Outer loop of the 2-anchor skip-grams. -/
def skip2Loop (maxJump : ℕ) : List (Str × ℕ) → List Pattern
  | [] => []
  | (a1, i1) :: rest => skip2Inner maxJump a1 i1 rest ++ skip2Loop maxJump rest

/-- `_anchor_skipgrams`. -/
def anchorSkipgrams (tokens : List Str) (anchors : List Str) (maxJump : ℕ)
    (addBigrams addTrigrams : Bool) : List Pattern :=
  let seq := anchorSequence tokens anchors
  (if addBigrams then skip2Loop maxJump seq else []) ++
    (if addTrigrams then skip3Loop maxJump seq else [])

/-- The keyword arguments of `extract_patterns_from_tokens`. -/
structure ExtractConfig where
  maxNgramN : ℕ
  addTokNgrams : Bool
  addAnchorWindows : Bool
  addSkeleton : Bool
  addCompressedSkeleton : Bool
  addAnchorPairs : Bool
  addAnchorSkip2 : Bool
  addAnchorSkip3 : Bool
  addAnchorSequence : Bool
  addAnchorSpans : Bool
  addSpanSignatures : Bool
  spanMaxGap : ℕ
  skipMaxJump : ℕ
deriving DecidableEq

/-- The default keyword arguments of `extract_patterns_from_tokens`. -/
def defaultConfig : ExtractConfig :=
  ⟨4, false, true, true, true, true, false, false, false, false, false, 20, 10⟩

/-- `extract_patterns_from_tokens`: all families in source order, plus the
sentence-level skeleton signature. -/
def extractPatternsFromTokens (tokens : List Str) (anchors : List Str)
    (cfg : ExtractConfig) : List Pattern × Str :=
  let anchorsInOrder := tokens.filter (isAnchor anchors)
  let p1 := if cfg.addTokNgrams then tokNgramPatterns tokens anchors cfg.maxNgramN else []
  let p2 := if cfg.addAnchorWindows then anchorWindowPatterns tokens anchors else []
  let p3 := if cfg.addAnchorPairs then anchorPairPatterns tokens anchors cfg.spanMaxGap else []
  let p4 := if cfg.addAnchorSequence then anchorSequenceSignature tokens anchors else []
  let skel := skeletonize tokens anchors
  let p5 := if cfg.addSkeleton then [⟨keySkeleton skel anchorsInOrder, joinSpace tokens⟩] else []
  let cskel := skeletonizeCompressed tokens anchors
  let p6 := if cfg.addCompressedSkeleton && !cskel.isEmpty then
      [⟨keyCompressedSkeleton cskel anchorsInOrder, joinSpace tokens⟩] else []
  let p7 := if cfg.addAnchorSpans then anchorSpanPatterns tokens anchors cfg.spanMaxGap else []
  let p8 := if cfg.addSpanSignatures then spanSignaturePatterns tokens anchors cfg.spanMaxGap else []
  let p9 := if cfg.addAnchorSkip2 || cfg.addAnchorSkip3 then
      anchorSkipgrams tokens anchors cfg.skipMaxJump cfg.addAnchorSkip2 cfg.addAnchorSkip3
    else []
  (p1 ++ p2 ++ p3 ++ p4 ++ p5 ++ p6 ++ p7 ++ p8 ++ p9, skel)

/-! ## C3: the anchor-pair family -/

theorem fst_le_of_mem_enumFrom {α : Type} (l : List α) :
    ∀ (n : ℕ) (p : ℕ × α), p ∈ List.enumFrom n l → n ≤ p.1 := by
  induction l with
  | nil => intro n p h; simp [List.enumFrom] at h
  | cons x xs ih =>
    intro n p h
    rcases List.mem_cons.1 h with h | h
    · subst h; exact le_refl n
    · exact le_trans (Nat.le_succ n) (ih (n + 1) p h)

theorem pairwise_fst_lt_enumFrom {α : Type} (l : List α) :
    ∀ n : ℕ, (List.enumFrom n l).Pairwise fun p q => p.1 < q.1 := by
  induction l with
  | nil => intro n; simp [List.enumFrom]
  | cons x xs ih =>
    intro n
    refine List.Pairwise.cons ?_ (ih (n + 1))
    intro q hq
    exact lt_of_lt_of_le (Nat.lt_succ_self n) (fst_le_of_mem_enumFrom xs (n + 1) q hq)

theorem pairwise_snd_lt_anchorSequence (tokens anchors : List Str) :
    (anchorSequence tokens anchors).Pairwise fun p q => p.2 < q.2 := by
  unfold anchorSequence
  rw [List.pairwise_map]
  refine List.Pairwise.filter _ ?_
  simpa [List.enum] using pairwise_fst_lt_enumFrom tokens 0

/-- All ordered pairs (earlier element, later element) of a list. -/
def ordPairs {α : Type} : List α → List (α × α)
  | [] => []
  | x :: rest => (rest.map fun y => (x, y)) ++ ordPairs rest

theorem ordPairs_cons {α : Type} (x : α) (rest : List α) :
    ordPairs (x :: rest) = (rest.map fun y => (x, y)) ++ ordPairs rest := rfl

/-- The pattern built from one qualifying ordered pair of anchor occurrences. -/
def pairPatternOf (tokens : List Str) (pq : (Str × ℕ) × (Str × ℕ)) : Pattern :=
  ⟨keyAnchorPair pq.1.1 pq.2.1 (bucketGap (pq.2.2 - pq.1.2 - 1)),
    joinSpace (slice tokens pq.1.2 (pq.2.2 + 1))⟩

theorem anchorPairInner_eq_filter (tokens : List Str) (maxGap : ℕ) (a1 : Str)
    (i1 : ℕ) (rest : List (Str × ℕ))
    (hp : rest.Pairwise fun p q => p.2 < q.2) :
    anchorPairInner tokens maxGap a1 i1 rest =
      ((rest.filter fun q => decide (q.2 - i1 - 1 ≤ maxGap)).map fun q =>
        pairPatternOf tokens ((a1, i1), q)) := by
  induction rest with
  | nil => rfl
  | cons q rest ih =>
    obtain ⟨hq, hp2⟩ := List.pairwise_cons.1 hp
    by_cases hgap : maxGap < q.2 - i1 - 1
    · have hfail : ∀ x ∈ q :: rest, ¬((fun r => decide (r.2 - i1 - 1 ≤ maxGap)) x = true) := by
        intro x hx
        rcases List.mem_cons.1 hx with h | h
        · subst h; simp; omega
        · have := hq x h
          simp
          omega
      rw [List.filter_eq_nil_iff.2 hfail]
      cases q with
      | mk a2 i2 =>
        unfold anchorPairInner
        rw [if_pos (by simpa using hgap)]
        rfl
    · cases q with
      | mk a2 i2 =>
        unfold anchorPairInner
        rw [if_neg (by simpa using hgap)]
        rw [List.filter_cons_of_pos (by simp; omega)]
        rw [List.map_cons]
        rw [ih hp2]
        rfl

theorem anchorPairLoop_eq_filter (tokens : List Str) (maxGap : ℕ) :
    ∀ seq : List (Str × ℕ), (seq.Pairwise fun p q => p.2 < q.2) →
      anchorPairLoop tokens maxGap seq =
        ((ordPairs seq).filter fun pq => decide (pq.2.2 - pq.1.2 - 1 ≤ maxGap)).map
          (pairPatternOf tokens) := by
  intro seq
  induction seq with
  | nil => intro _; rfl
  | cons x rest ih =>
    intro hp
    obtain ⟨hx, hp2⟩ := List.pairwise_cons.1 hp
    cases x with
    | mk a1 i1 =>
      show anchorPairInner tokens maxGap a1 i1 rest ++ anchorPairLoop tokens maxGap rest = _
      rw [anchorPairInner_eq_filter tokens maxGap a1 i1 rest hp2, ih hp2]
      rw [ordPairs_cons, List.filter_append, List.map_append]
      congr 1
      rw [List.filter_map, List.map_map]
      rfl

/-- C3: with the anchor-pair family, the emitted list is exactly one pattern
per ordered pair of anchor occurrences with interior gap at most the bound —
keyed (earlier anchor, later anchor, bucketed gap) — and none beyond the
bound; the early break loses no qualifying pair.  On 我把它扔掉了 with anchors
把/了 this yields the 把→了 key with gap bucket `2-3`. -/
theorem claim_C3 :
    (∀ (tokens anchors : List Str) (maxGap : ℕ),
      anchorPairPatterns tokens anchors maxGap =
        ((ordPairs (anchorSequence tokens anchors)).filter
            fun pq => decide (pq.2.2 - pq.1.2 - 1 ≤ maxGap)).map
          (pairPatternOf tokens)) ∧
      keyAnchorPair "把".data "了".data "2-3".data ∈
        (anchorPairPatterns ["我".data, "把".data, "它".data, "扔".data,
            "掉".data, "了".data] ["把".data, "了".data] 20).map Pattern.patternKey := by
  constructor
  · intro tokens anchors maxGap
    exact anchorPairLoop_eq_filter tokens maxGap (anchorSequence tokens anchors)
      (pairwise_snd_lt_anchorSequence tokens anchors)
  · decide

/-! ## C5: the anchor-span family -/

theorem find?_sorted_eq_some_iff (l : List ℕ) (hl : l.Pairwise (· < ·))
    (p : ℕ → Bool) (j : ℕ) :
    l.find? p = some j ↔
      (j ∈ l ∧ p j = true ∧ ∀ k ∈ l, k < j → p k = false) := by
  induction l with
  | nil => simp
  | cons x rest ih =>
    obtain ⟨hx, hrest⟩ := List.pairwise_cons.1 hl
    by_cases hpx : p x = true
    · rw [List.find?_cons_of_pos _ hpx]
      constructor
      · intro h
        injection h with h
        subst h
        refine ⟨by simp, hpx, ?_⟩
        intro k hk hkj
        rcases List.mem_cons.1 hk with h | h
        · omega
        · exact absurd (hx k h) (by omega)
      · rintro ⟨hj, hpj, hmin⟩
        rcases List.mem_cons.1 hj with h | h
        · rw [h]
        · exact absurd (hmin x (by simp) (hx j h)) (by simp [hpx])
    · rw [List.find?_cons_of_neg _ hpx]
      rw [ih hrest]
      constructor
      · rintro ⟨hj, hpj, hmin⟩
        refine ⟨List.mem_cons_of_mem x hj, hpj, ?_⟩
        intro k hk hkj
        rcases List.mem_cons.1 hk with h | h
        · subst h; simpa using hpx
        · exact hmin k h hkj
      · rintro ⟨hj, hpj, hmin⟩
        rcases List.mem_cons.1 hj with h | h
        · subst h; exact absurd hpj hpx
        · exact ⟨h, hpj, fun k hk hkj => hmin k (List.mem_cons_of_mem x hk) hkj⟩

theorem find?_eq_head?_filter {α : Type} (p : α → Bool) (l : List α) :
    l.find? p = (l.filter p).head? := by
  induction l with
  | nil => rfl
  | cons x rest ih =>
    by_cases hpx : p x = true
    · rw [List.find?_cons_of_pos _ hpx, List.filter_cons_of_pos hpx]; rfl
    · rw [List.find?_cons_of_neg _ hpx,
        List.filter_cons_of_neg (by simpa using hpx), ih]

/-- Modelled on the claim's words: the nearest position after `i` holding an
anchor whose interior gap is within the bound (which in the code means
strictly less than `maxGap`). -/
def nearestLaterAnchor (tokens : List Str) (anchors : List Str) (i maxGap : ℕ) :
    Option ℕ :=
  ((List.range tokens.length).filter fun j =>
    decide (i < j) && isAnchor anchors (tokens.getD j []) &&
      decide (j - i - 1 < maxGap)).head?

theorem spanTailPos_eq_nearest (tokens anchors : List Str) (i maxGap : ℕ) :
    spanTailPos tokens anchors i maxGap =
      nearestLaterAnchor tokens anchors i maxGap := by
  unfold spanTailPos nearestLaterAnchor
  rw [← find?_eq_head?_filter]
  rcases hf : (List.range' (i + 1) (min tokens.length (i + 1 + maxGap) - (i + 1))).find?
      (fun j => isAnchor anchors (tokens.getD j [])) with _ | j
  · rw [List.find?_eq_none] at hf
    symm
    rw [List.find?_eq_none]
    intro k hk hq
    have hk2 := List.mem_range.1 hk
    simp only [Bool.and_eq_true, decide_eq_true_eq] at hq
    obtain ⟨⟨hik, hanch⟩, hgap⟩ := hq
    exact hf k (by rw [List.mem_range'_1]; omega) hanch
  · have hj1 := List.mem_of_find?_eq_some hf
    have hj2 := List.find?_some hf
    rw [List.mem_range'_1] at hj1
    have hmin := (find?_sorted_eq_some_iff _
      (List.pairwise_lt_range' (i + 1) _) _ j).1 hf
    symm
    rw [find?_sorted_eq_some_iff _ (List.pairwise_lt_range _) _ j]
    refine ⟨List.mem_range.2 (by omega), ?_, ?_⟩
    · simp only [Bool.and_eq_true, decide_eq_true_eq]
      exact ⟨⟨by omega, hj2⟩, by omega⟩
    · intro k hk hkj
      have hk2 := List.mem_range.1 hk
      rw [Bool.eq_false_iff]
      intro hq
      simp only [Bool.and_eq_true, decide_eq_true_eq] at hq
      obtain ⟨⟨hik, hanch⟩, hgap⟩ := hq
      have := hmin.2.2 k (by rw [List.mem_range'_1]; omega) hkj
      rw [this] at hanch
      exact Bool.false_ne_true hanch

/-- C5 (amended): with the anchor-span family enabled, every anchor occurrence
yields exactly one pattern whose tail is the nearest later anchor occurrence
with interior gap strictly less than `max_gap` (not at most `max_gap` as the
claim put it), or `<END>` with gap `min max_gap (n-i-1)` when no such anchor
exists. -/
theorem claim_C5 (tokens anchors : List Str) (maxGap : ℕ) :
    (anchorSpanPatterns tokens anchors maxGap =
      ((tokens.enum).filter fun p => isAnchor anchors p.2).map fun p =>
        match nearestLaterAnchor tokens anchors p.1 maxGap with
        | some j =>
          ⟨keyAnchorSpan p.2 (tokens.getD j []) (bucketGap (j - p.1 - 1)),
            joinSpace (slice tokens p.1 (j + 1))⟩
        | none =>
          ⟨keyAnchorSpan p.2 endMarker
              (bucketGap (min maxGap (tokens.length - p.1 - 1))),
            joinSpace (slice tokens p.1 (min tokens.length (p.1 + 1 + maxGap)))⟩) ∧
      (∀ i j, nearestLaterAnchor tokens anchors i maxGap = some j →
        i < j ∧ j < tokens.length ∧
          isAnchor anchors (tokens.getD j []) = true ∧ j - i - 1 < maxGap ∧
          ∀ k, i < k → k < j → isAnchor anchors (tokens.getD k []) = false) ∧
      (∀ i, nearestLaterAnchor tokens anchors i maxGap = none →
        ∀ k, i < k → k < tokens.length → k - i - 1 < maxGap →
          isAnchor anchors (tokens.getD k []) = false) := by
  refine ⟨?_, ?_, ?_⟩
  · unfold anchorSpanPatterns
    refine List.map_congr_left ?_
    intro p _
    simp only [spanTailPos_eq_nearest]
  · intro i j hj
    unfold nearestLaterAnchor at hj
    rw [← find?_eq_head?_filter] at hj
    have h := (find?_sorted_eq_some_iff _ (List.pairwise_lt_range _) _ j).1 hj
    obtain ⟨hj1, hj2, hmin⟩ := h
    have hj3 := List.mem_range.1 hj1
    simp only [Bool.and_eq_true, decide_eq_true_eq] at hj2
    refine ⟨hj2.1.1, hj3, hj2.1.2, hj2.2, ?_⟩
    intro k hik hkj
    have hthis := hmin k (List.mem_range.2 (by omega)) hkj
    rw [Bool.eq_false_iff] at hthis ⊢
    intro hc
    refine hthis ?_
    simp only [Bool.and_eq_true, decide_eq_true_eq]
    exact ⟨⟨hik, hc⟩, by omega⟩
  · intro i hnone k hik hkn hgap
    unfold nearestLaterAnchor at hnone
    rw [← find?_eq_head?_filter, List.find?_eq_none] at hnone
    have := hnone k (List.mem_range.2 hkn)
    by_contra hc
    rw [Bool.not_eq_false] at hc
    exact this (by simp only [Bool.and_eq_true, decide_eq_true_eq]; exact ⟨⟨hik, hc⟩, hgap⟩)

/-- C5 as stated fails: the code scans `range(i+1, i+1+max_gap)`, so a later
anchor at interior gap exactly `max_gap` is not found.  With tokens A x A,
anchors A and `max_gap = 1`, the anchor at index 2 has gap 1 ≤ 1, yet the
span pattern of the first occurrence is keyed with the `<END>` tail. -/
theorem claim_C5_counterexample :
    (isAnchor ["A".data] (["A".data, "x".data, "A".data].getD 2 []) = true ∧
        2 - 0 - 1 ≤ 1) ∧
      (anchorSpanPatterns ["A".data, "x".data, "A".data] ["A".data] 1).map
          Pattern.patternKey =
        [keyAnchorSpan "A".data endMarker "1".data,
          keyAnchorSpan "A".data endMarker "0".data] ∧
      keyAnchorSpan "A".data "A".data "1".data ∉
        (anchorSpanPatterns ["A".data, "x".data, "A".data] ["A".data] 1).map
          Pattern.patternKey := by
  decide

theorem claim_C5_witness :
    0 < 2 ∧ 2 < 3 ∧
      isAnchor ["A".data] (["A".data, "x".data, "A".data].getD 2 []) = true ∧
      2 - 0 - 1 < 2 ∧
      ∀ k, 0 < k → k < 2 →
        isAnchor ["A".data] (["A".data, "x".data, "A".data].getD k []) = false :=
  (claim_C5 ["A".data, "x".data, "A".data] ["A".data] 2).2.1 0 2 (by decide)

/-! ## C8: zero-anchor and all-anchor sentences -/

theorem snd_mem_of_mem_enumFrom {α : Type} (l : List α) :
    ∀ (n : ℕ) (p : ℕ × α), p ∈ List.enumFrom n l → p.2 ∈ l := by
  induction l with
  | nil => intro n p h; simp [List.enumFrom] at h
  | cons x xs ih =>
    intro n p h
    rcases List.mem_cons.1 h with h | h
    · subst h; simp
    · exact List.mem_cons_of_mem x (ih (n + 1) p h)

theorem enumFilter_eq_nil (tokens anchors : List Str)
    (h : ∀ t ∈ tokens, t ∉ anchors) :
    (tokens.enum.filter fun p => isAnchor anchors p.2) = [] := by
  rw [List.filter_eq_nil_iff]
  intro p hp
  have : p.2 ∈ tokens := by
    simpa [List.enum] using snd_mem_of_mem_enumFrom tokens 0 p (by simpa [List.enum] using hp)
  simp [isAnchor, h p.2 this]

theorem tokensFilter_eq_nil (tokens anchors : List Str)
    (h : ∀ t ∈ tokens, t ∉ anchors) :
    tokens.filter (isAnchor anchors) = [] := by
  rw [List.filter_eq_nil_iff]
  intro t ht
  simp [isAnchor, h t ht]

theorem anchorSequence_eq_nil (tokens anchors : List Str)
    (h : ∀ t ∈ tokens, t ∉ anchors) :
    anchorSequence tokens anchors = [] := by
  unfold anchorSequence
  rw [enumFilter_eq_nil tokens anchors h]
  rfl

theorem tokNgramPatterns_eq_nil (tokens anchors : List Str) (maxN : ℕ)
    (h : ∀ t ∈ tokens, t ∉ anchors) :
    tokNgramPatterns tokens anchors maxN = [] := by
  unfold tokNgramPatterns
  rw [List.flatMap_eq_nil_iff]
  intro n _
  rw [List.filterMap_eq_nil_iff]
  intro ng hng
  have hnoanch : ng.any (isAnchor anchors) = false := by
    rw [List.any_eq_false]
    intro t ht
    rcases List.mem_map.1 hng with ⟨i, _, rfl⟩
    have : t ∈ tokens := List.mem_of_mem_drop (List.mem_of_mem_take ht)
    simp [isAnchor, h t this]
  rw [hnoanch]
  rfl

theorem cskelCore_true_eq_nil (anchors : List Str) (ts : List Str)
    (h : ∀ t ∈ ts, t ∉ anchors) : cskelCore anchors ts true = [] := by
  induction ts with
  | nil => rfl
  | cons t ts ih =>
    unfold cskelCore
    rw [if_neg (by simp [isAnchor, h t (by simp)])]
    rw [if_pos rfl]
    exact ih fun x hx => h x (List.mem_cons_of_mem t hx)

theorem skeletonizeCompressed_eq_nil (tokens anchors : List Str)
    (h : ∀ t ∈ tokens, t ∉ anchors) :
    skeletonizeCompressed tokens anchors = [] := by
  unfold skeletonizeCompressed
  cases tokens with
  | nil => rfl
  | cons t ts =>
    have hcore : cskelCore anchors (t :: ts) false = [spanTok] := by
      unfold cskelCore
      rw [if_neg (by simp [isAnchor, h t (by simp)])]
      rw [if_neg (by simp)]
      rw [cskelCore_true_eq_nil anchors ts fun x hx => h x (List.mem_cons_of_mem t hx)]
    rw [hcore]
    rfl

/-- C8 (amended): a zero-anchor sentence extracts exactly the skeleton pattern
(under its toggle) and nothing else — in particular the compressed skeleton is
empty and emits nothing — with a signature made only of placeholders; an
all-anchor sentence has equal compressed-skeleton and skeleton signatures,
both the literal joined token sequence, provided no token is the literal
`<SPAN>` placeholder (which the trimming step would strip). -/
theorem claim_C8 :
    (∀ (tokens anchors : List Str) (cfg : ExtractConfig),
      (∀ t ∈ tokens, t ∉ anchors) →
        (extractPatternsFromTokens tokens anchors cfg).1 =
          (if cfg.addSkeleton then
            [⟨keySkeleton (skeletonize tokens anchors) [], joinSpace tokens⟩]
          else []) ∧
        (extractPatternsFromTokens tokens anchors cfg).2 =
          skeletonize tokens anchors ∧
        ∀ t ∈ tokens, skelToken anchors t ∈
          ["<NUM>".data, "<C1>".data, "<C2>".data, "<W>".data]) ∧
    (∀ tokens anchors : List Str, tokens ≠ [] → (∀ t ∈ tokens, t ∈ anchors) →
      (∀ t ∈ tokens, t ≠ spanTok) →
        skeletonizeCompressed tokens anchors = skeletonize tokens anchors ∧
        skeletonize tokens anchors = joinSpace tokens) := by
  constructor
  · intro tokens anchors cfg h
    refine ⟨?_, rfl, ?_⟩
    · have h1 := tokNgramPatterns_eq_nil tokens anchors cfg.maxNgramN h
      have h2 : anchorWindowPatterns tokens anchors = [] := by
        unfold anchorWindowPatterns
        rw [enumFilter_eq_nil tokens anchors h]
        rfl
      have h3 : anchorPairPatterns tokens anchors cfg.spanMaxGap = [] := by
        unfold anchorPairPatterns
        rw [anchorSequence_eq_nil tokens anchors h]
        rfl
      have h4 : anchorSequenceSignature tokens anchors = [] := by
        unfold anchorSequenceSignature
        rw [tokensFilter_eq_nil tokens anchors h]
        rfl
      have h7 : anchorSpanPatterns tokens anchors cfg.spanMaxGap = [] := by
        unfold anchorSpanPatterns
        rw [enumFilter_eq_nil tokens anchors h]
        rfl
      have h8 : spanSignaturePatterns tokens anchors cfg.spanMaxGap = [] := by
        unfold spanSignaturePatterns
        rw [enumFilter_eq_nil tokens anchors h]
        rfl
      have h9 : anchorSkipgrams tokens anchors cfg.skipMaxJump cfg.addAnchorSkip2
          cfg.addAnchorSkip3 = [] := by
        unfold anchorSkipgrams
        rw [anchorSequence_eq_nil tokens anchors h]
        cases cfg.addAnchorSkip2 <;> cases cfg.addAnchorSkip3 <;> rfl
      have hcs := skeletonizeCompressed_eq_nil tokens anchors h
      have hfil := tokensFilter_eq_nil tokens anchors h
      unfold extractPatternsFromTokens
      rw [h1, h2, h3, h4, h7, h8, h9, hcs, hfil]
      simp [ite_self]
    · intro t ht
      unfold skelToken
      rw [if_neg (by simp [isAnchor, h t ht])]
      split_ifs <;> simp
  · intro tokens anchors hne hall hns
    have hskel : tokens.map (skelToken anchors) = tokens := by
      have hid : ∀ t ∈ tokens, skelToken anchors t = t := by
        intro t ht
        unfold skelToken
        rw [if_pos (by simp [isAnchor, hall t ht])]
      calc tokens.map (skelToken anchors) = tokens.map id := List.map_congr_left hid
        _ = tokens := List.map_id tokens
    have hcore : ∀ (ts : List Str), (∀ t ∈ ts, t ∈ anchors) →
        ∀ b, cskelCore anchors ts b = ts := by
      intro ts
      induction ts with
      | nil => intro _ b; rfl
      | cons t ts ih =>
        intro hts b
        unfold cskelCore
        rw [if_pos (by simp [isAnchor, hts t (by simp)])]
        rw [ih (fun x hx => hts x (List.mem_cons_of_mem t hx)) false]
    have hd1 : (tokens.dropWhile fun x => decide (x = spanTok)) = tokens := by
      cases tokens with
      | nil => rfl
      | cons t ts =>
        rw [List.dropWhile_cons]
        rw [if_neg (by simp [hns t (by simp)])]
    have hd2 : (tokens.reverse.dropWhile fun x => decide (x = spanTok)) =
        tokens.reverse := by
      cases hrev : tokens.reverse with
      | nil => rfl
      | cons t ts =>
        rw [List.dropWhile_cons]
        have : t ∈ tokens := by
          rw [← List.mem_reverse, hrev]
          simp
        rw [if_neg (by simp [hns t this])]
    constructor
    · unfold skeletonizeCompressed skeletonize
      rw [hcore tokens hall false]
      simp only [hd1, hd2, List.reverse_reverse, hskel]
    · unfold skeletonize
      rw [hskel]

theorem claim_C8_witness :
    (extractPatternsFromTokens ["你".data, "好".data] [] defaultConfig).1 =
        [⟨keySkeleton (skeletonize ["你".data, "好".data] []) [],
          joinSpace ["你".data, "好".data]⟩] ∧
      skeletonizeCompressed ["把".data, "了".data] ["把".data, "了".data] =
        skeletonize ["把".data, "了".data] ["把".data, "了".data] := by
  constructor
  · exact (claim_C8.1 ["你".data, "好".data] [] defaultConfig (by decide)).1
  · exact (claim_C8.2 ["把".data, "了".data] ["把".data, "了".data] (by decide)
      (by decide) (by decide)).1

/-- C8 as stated fails on an all-anchor sentence whose token is literally the
`<SPAN>` placeholder: the trimming step of the compressed skeleton strips it,
so the compressed signature is empty while the skeleton signature is the
token itself. -/
theorem claim_C8_counterexample :
    (["<SPAN>".data] : List Str) ≠ [] ∧
      (∀ t ∈ (["<SPAN>".data] : List Str), t ∈ (["<SPAN>".data] : List Str)) ∧
      skeletonizeCompressed ["<SPAN>".data] ["<SPAN>".data] ≠
        skeletonize ["<SPAN>".data] ["<SPAN>".data] := by
  decide

/-! ## state.py : the personal grammar state -/

/-- Per-key counters of `PatternStats`; the Python `set` of realizations is a
duplicate-free list. -/
structure PatternStats where
  countSeen : ℕ
  distinctSentenceCount : ℕ
  realizations : List Str
deriving DecidableEq

/-- The dataclass defaults: both counters zero, empty realization set. -/
def PatternStats.init : PatternStats := ⟨0, 0, []⟩

/-- Python `set.add`. -/
def setAdd (s : List Str) (r : Str) : List Str := if r ∈ s then s else r :: s

/-- `PatternStats.observe_occurrence`: bump `count_seen`; store the
realization when it is truthy (non-empty). -/
def PatternStats.observeOccurrence (st : PatternStats) (r : Str) : PatternStats :=
  ⟨st.countSeen + 1, st.distinctSentenceCount,
    if r.isEmpty then st.realizations else setAdd st.realizations r⟩

/-- `PatternStats.observe_sentence`: bump `distinct_sentence_count`. -/
def PatternStats.markSentence (st : PatternStats) : PatternStats :=
  ⟨st.countSeen, st.distinctSentenceCount + 1, st.realizations⟩

/-- `PatternStats.emerged`. -/
def PatternStats.emerged (st : PatternStats) (minCount minDistinct : ℕ) : Bool :=
  decide (minCount ≤ st.countSeen) && decide (minDistinct ≤ st.distinctSentenceCount)

/-- Lookup in an insertion-ordered Python dict. -/
def dlookup {β : Type} (k : Str) : List (Str × β) → Option β
  | [] => none
  | kv :: rest => if kv.1 = k then some kv.2 else dlookup k rest

/-- Write to an insertion-ordered Python dict: update in place, or append a
fresh key at the end. -/
def dset {β : Type} (k : Str) (v : β) : List (Str × β) → List (Str × β)
  | [] => [(k, v)]
  | kv :: rest => if kv.1 = k then (k, v) :: rest else kv :: dset k v rest

/-- The stats a `defaultdict(PatternStats)` read yields for `k`. -/
def statsOfMap (m : List (Str × PatternStats)) (k : Str) : PatternStats :=
  (dlookup k m).getD PatternStats.init

/-- `GrammarState`: the pattern dict plus the two emergence thresholds. -/
structure GrammarState where
  patterns : List (Str × PatternStats)
  minCountSeen : ℕ
  minDistinctSentenceCount : ℕ
deriving DecidableEq

/-- `GrammarState.__init__` (defaults 3 and 2 at call sites). -/
def GrammarState.init (mc md : ℕ) : GrammarState := ⟨[], mc, md⟩

/-- One iteration of the occurrence loop of `observe_sentence`: defaultdict
access followed by `observe_occurrence` in place. -/
def observeStep (m : List (Str × PatternStats)) (kr : Str × Str) :
    List (Str × PatternStats) :=
  dset kr.1 ((statsOfMap m kr.1).observeOccurrence kr.2) m

/-- `GrammarState.observe_sentence`: occurrences first, then one
`observe_sentence` mark per distinct key of the sentence. -/
def GrammarState.observeSentence (g : GrammarState) (pats : List (Str × Str)) :
    GrammarState :=
  let m1 := pats.foldl observeStep g.patterns
  let seen := (pats.map Prod.fst).dedup
  let m2 := seen.foldl (fun m k => dset k (statsOfMap m k).markSentence m) m1
  ⟨m2, g.minCountSeen, g.minDistinctSentenceCount⟩

/-- `GrammarState.is_emerged`: a `dict.get` read — never inserts — returning
`False` for an unknown key; the unchanged state is returned alongside. -/
def GrammarState.isEmerged (g : GrammarState) (k : Str) : Bool × GrammarState :=
  match dlookup k g.patterns with
  | none => (false, g)
  | some st => (st.emerged g.minCountSeen g.minDistinctSentenceCount, g)

/-- Folding a whole corpus of per-sentence pattern lists into a fresh state. -/
def runState (mc md : ℕ) (sentences : List (List (Str × Str))) : GrammarState :=
  sentences.foldl GrammarState.observeSentence (GrammarState.init mc md)

/-- Number of (key, realization) pairs for `k` in one sentence. -/
def occCountIn (pats : List (Str × Str)) (k : Str) : ℕ :=
  (pats.filter fun kr => decide (kr.1 = k)).length

/-- Total occurrence count of `k` over a corpus. -/
def occTotal (sentences : List (List (Str × Str))) (k : Str) : ℕ :=
  (sentences.map fun s => occCountIn s k).sum

/-- Number of sentences of the corpus containing `k` at least once. -/
def sentCount (sentences : List (List (Str × Str))) (k : Str) : ℕ :=
  (sentences.filter fun s => s.any fun kr => decide (kr.1 = k)).length

/-! sub-lemmas about the dict and the two folds of observe_sentence -/

theorem dlookup_dset_self {β : Type} (k : Str) (v : β) (m : List (Str × β)) :
    dlookup k (dset k v m) = some v := by
  induction m with
  | nil => simp [dset, dlookup]
  | cons kv rest ih =>
    by_cases h : kv.1 = k
    · simp [dset, dlookup, h]
    · simp [dset, dlookup, h, ih]

theorem dlookup_dset_ne {β : Type} (k k2 : Str) (v : β) (m : List (Str × β))
    (h : k2 ≠ k) : dlookup k2 (dset k v m) = dlookup k2 m := by
  have h2 : k ≠ k2 := Ne.symm h
  induction m with
  | nil => simp [dset, dlookup, h2]
  | cons kv rest ih =>
    by_cases hk : kv.1 = k
    · subst hk
      simp [dset, dlookup, h2]
    · simp [dset, dlookup, hk, ih]

theorem statsOfMap_observeStep_self (m : List (Str × PatternStats)) (kr : Str × Str) :
    statsOfMap (observeStep m kr) kr.1 = (statsOfMap m kr.1).observeOccurrence kr.2 := by
  unfold observeStep statsOfMap
  rw [dlookup_dset_self]
  rfl

theorem statsOfMap_observeStep_ne (m : List (Str × PatternStats)) (kr : Str × Str)
    (k : Str) (h : k ≠ kr.1) :
    statsOfMap (observeStep m kr) k = statsOfMap m k := by
  unfold observeStep statsOfMap
  rw [dlookup_dset_ne _ _ _ _ h]

/-- The occurrence fold of one sentence, restricted to one key, applies
`observe_occurrence` exactly once for each pair carrying that key. -/
theorem statsOfMap_occFold (k : Str) :
    ∀ (pats : List (Str × Str)) (m : List (Str × PatternStats)),
      statsOfMap (pats.foldl observeStep m) k =
        ((pats.filter fun kr => decide (kr.1 = k)).foldl
          (fun st kr => st.observeOccurrence kr.2) (statsOfMap m k)) := by
  intro pats
  induction pats with
  | nil => intro m; rfl
  | cons kr pats ih =>
    intro m
    rw [List.foldl_cons, ih]
    by_cases h : kr.1 = k
    · rw [List.filter_cons_of_pos (by simp [h]), List.foldl_cons]
      rw [← h, statsOfMap_observeStep_self]
    · rw [List.filter_cons_of_neg (by simp [h])]
      rw [statsOfMap_observeStep_ne m kr k fun hh => h hh.symm]

theorem dlookup_occFold_none (k : Str) :
    ∀ (pats : List (Str × Str)) (m : List (Str × PatternStats)),
      (dlookup k (pats.foldl observeStep m) = none ↔
        dlookup k m = none ∧ occCountIn pats k = 0) := by
  intro pats
  induction pats with
  | nil => intro m; simp [occCountIn]
  | cons kr pats ih =>
    intro m
    rw [List.foldl_cons, ih]
    by_cases h : kr.1 = k
    · have h1 : dlookup k (observeStep m kr) =
          some ((statsOfMap m kr.1).observeOccurrence kr.2) := by
        unfold observeStep
        rw [← h]
        exact dlookup_dset_self kr.1 _ m
      rw [h1]
      have h2 : occCountIn (kr :: pats) k ≠ 0 := by
        unfold occCountIn
        rw [List.filter_cons_of_pos (by simp [h])]
        simp
      simp [h2]
    · have h1 : dlookup k (observeStep m kr) = dlookup k m :=
        dlookup_dset_ne _ _ _ _ fun hh => h hh.symm
      have h2 : occCountIn (kr :: pats) k = occCountIn pats k := by
        unfold occCountIn
        rw [List.filter_cons_of_neg (by simp [h])]
      rw [h1, h2]

/-- The distinct-sentence fold marks the key exactly once when it is in the
`seen` set. -/
theorem statsOfMap_markFold (k : Str) :
    ∀ (seen : List Str) (m : List (Str × PatternStats)), seen.Nodup →
      statsOfMap (seen.foldl (fun m2 k2 => dset k2 (statsOfMap m2 k2).markSentence m2) m) k =
        if k ∈ seen then (statsOfMap m k).markSentence else statsOfMap m k := by
  intro seen
  induction seen with
  | nil => intro m _; simp
  | cons x seen ih =>
    intro m hnd
    obtain ⟨hx, hnd2⟩ := List.nodup_cons.1 hnd
    rw [List.foldl_cons, ih _ hnd2]
    by_cases h : k = x
    · subst h
      rw [if_neg hx, if_pos (by simp)]
      unfold statsOfMap
      rw [dlookup_dset_self]
      rfl
    · have h1 : statsOfMap (dset x (statsOfMap m x).markSentence m) k = statsOfMap m k := by
        unfold statsOfMap
        rw [dlookup_dset_ne _ _ _ _ h]
      rw [h1]
      by_cases hmem : k ∈ seen
      · rw [if_pos hmem, if_pos (List.mem_cons_of_mem x hmem)]
      · rw [if_neg hmem, if_neg (by simp [h, hmem])]

theorem dlookup_markFold_none (k : Str) :
    ∀ (seen : List Str) (m : List (Str × PatternStats)),
      (dlookup k (seen.foldl (fun m2 k2 => dset k2 (statsOfMap m2 k2).markSentence m2) m) = none ↔
        dlookup k m = none ∧ k ∉ seen) := by
  intro seen
  induction seen with
  | nil => intro m; simp
  | cons x seen ih =>
    intro m
    rw [List.foldl_cons, ih]
    by_cases h : k = x
    · subst h
      rw [dlookup_dset_self]
      simp
    · rw [dlookup_dset_ne _ _ _ _ h]
      simp [h]

theorem countSeen_occFold (l : List (Str × Str)) :
    ∀ st : PatternStats,
      (l.foldl (fun st2 kr => st2.observeOccurrence kr.2) st).countSeen =
        st.countSeen + l.length := by
  induction l with
  | nil => intro st; simp
  | cons kr l ih =>
    intro st
    rw [List.foldl_cons, ih]
    show st.countSeen + 1 + l.length = st.countSeen + (l.length + 1)
    omega

theorem distinct_occFold (l : List (Str × Str)) :
    ∀ st : PatternStats,
      (l.foldl (fun st2 kr => st2.observeOccurrence kr.2) st).distinctSentenceCount =
        st.distinctSentenceCount := by
  induction l with
  | nil => intro st; rfl
  | cons kr l ih => intro st; rw [List.foldl_cons, ih]; rfl

theorem reals_occFold (l : List (Str × Str)) :
    ∀ st : PatternStats,
      (l.foldl (fun st2 kr => st2.observeOccurrence kr.2) st).realizations =
        (l.map Prod.snd).foldl
          (fun s r => if r.isEmpty then s else setAdd s r) st.realizations := by
  induction l with
  | nil => intro st; rfl
  | cons kr l ih =>
    intro st
    rw [List.foldl_cons, ih, List.map_cons, List.foldl_cons]
    rfl

theorem mem_dedup_map_fst (pats : List (Str × Str)) (k : Str) :
    k ∈ (pats.map Prod.fst).dedup ↔ 0 < occCountIn pats k := by
  rw [List.mem_dedup]
  unfold occCountIn
  rw [List.length_pos]
  constructor
  · intro h hnil
    rcases List.mem_map.1 h with ⟨kr, hkr, hk⟩
    have hmem : kr ∈ pats.filter fun kr2 => decide (kr2.1 = k) := by
      rw [List.mem_filter]
      exact ⟨hkr, by simp [hk]⟩
    rw [hnil] at hmem
    simp at hmem
  · intro h
    rcases List.exists_mem_of_ne_nil _ h with ⟨kr, hkr⟩
    rw [List.mem_filter] at hkr
    have hk : kr.1 = k := by simpa using hkr.2
    exact hk ▸ List.mem_map_of_mem Prod.fst hkr.1

theorem occCountIn_pos_iff_any (pats : List (Str × Str)) (k : Str) :
    0 < occCountIn pats k ↔ (pats.any fun kr => decide (kr.1 = k)) = true := by
  unfold occCountIn
  rw [List.length_pos, List.any_eq_true]
  constructor
  · intro h
    rcases List.exists_mem_of_ne_nil _ h with ⟨kr, hkr⟩
    rw [List.mem_filter] at hkr
    exact ⟨kr, hkr.1, hkr.2⟩
  · rintro ⟨kr, hkr, hk⟩ hnil
    have hmem : kr ∈ pats.filter fun kr2 => decide (kr2.1 = k) :=
      List.mem_filter.2 ⟨hkr, hk⟩
    rw [hnil] at hmem
    simp at hmem

/-- The effect of one `observe_sentence` call on the stats of one key. -/
theorem observeSentence_effect (g : GrammarState) (pats : List (Str × Str))
    (k : Str) :
    (statsOfMap (g.observeSentence pats).patterns k).countSeen =
        (statsOfMap g.patterns k).countSeen + occCountIn pats k ∧
      (statsOfMap (g.observeSentence pats).patterns k).distinctSentenceCount =
        (statsOfMap g.patterns k).distinctSentenceCount +
          (if 0 < occCountIn pats k then 1 else 0) ∧
      (dlookup k (g.observeSentence pats).patterns = none ↔
        dlookup k g.patterns = none ∧ occCountIn pats k = 0) ∧
      (statsOfMap (g.observeSentence pats).patterns k).realizations =
        (((pats.filter fun kr => decide (kr.1 = k)).map Prod.snd).foldl
          (fun s r => if r.isEmpty then s else setAdd s r)
          (statsOfMap g.patterns k).realizations) ∧
      (g.observeSentence pats).minCountSeen = g.minCountSeen ∧
      (g.observeSentence pats).minDistinctSentenceCount =
        g.minDistinctSentenceCount := by
  have hpat : (g.observeSentence pats).patterns =
      ((pats.map Prod.fst).dedup).foldl
        (fun m2 k2 => dset k2 (statsOfMap m2 k2).markSentence m2)
        (pats.foldl observeStep g.patterns) := rfl
  have hmark := statsOfMap_markFold k ((pats.map Prod.fst).dedup)
    (pats.foldl observeStep g.patterns) (List.nodup_dedup _)
  have hocc := statsOfMap_occFold k pats g.patterns
  have hmem := mem_dedup_map_fst pats k
  refine ⟨?_, ?_, ?_, ?_, rfl, rfl⟩
  · rw [hpat, hmark]
    by_cases hin : k ∈ (pats.map Prod.fst).dedup
    · rw [if_pos hin]
      show (statsOfMap (pats.foldl observeStep g.patterns) k).countSeen = _
      rw [hocc, countSeen_occFold]
      unfold occCountIn
      rfl
    · rw [if_neg hin, hocc, countSeen_occFold]
      unfold occCountIn
      rfl
  · rw [hpat, hmark]
    by_cases hin : k ∈ (pats.map Prod.fst).dedup
    · rw [if_pos hin]
      show (statsOfMap (pats.foldl observeStep g.patterns) k).distinctSentenceCount + 1 = _
      rw [hocc, distinct_occFold, if_pos (hmem.1 hin)]
    · rw [if_neg hin, hocc, distinct_occFold,
        if_neg (fun hpos => hin (hmem.2 hpos))]
      omega
  · rw [hpat, dlookup_markFold_none, dlookup_occFold_none]
    constructor
    · rintro ⟨⟨h1, h2⟩, _⟩
      exact ⟨h1, h2⟩
    · rintro ⟨h1, h2⟩
      refine ⟨⟨h1, h2⟩, fun hin => ?_⟩
      have := hmem.1 hin
      omega
  · rw [hpat, hmark]
    by_cases hin : k ∈ (pats.map Prod.fst).dedup
    · rw [if_pos hin]
      show (statsOfMap (pats.foldl observeStep g.patterns) k).realizations = _
      rw [hocc, reals_occFold]
    · rw [if_neg hin, hocc, reals_occFold]

/-- All non-empty realizations for `k`, in observation order, over a corpus. -/
def realStream (sentences : List (List (Str × Str))) (k : Str) : List Str :=
  sentences.flatMap fun s => (s.filter fun kr => decide (kr.1 = k)).map Prod.snd

/-- The cumulative effect of a corpus of `observe_sentence` calls on one key. -/
theorem foldState_effect (k : Str) (sentences : List (List (Str × Str))) :
    ∀ g : GrammarState,
      (statsOfMap (sentences.foldl GrammarState.observeSentence g).patterns k).countSeen =
          (statsOfMap g.patterns k).countSeen + occTotal sentences k ∧
        (statsOfMap (sentences.foldl GrammarState.observeSentence g).patterns k).distinctSentenceCount =
          (statsOfMap g.patterns k).distinctSentenceCount + sentCount sentences k ∧
        (dlookup k (sentences.foldl GrammarState.observeSentence g).patterns = none ↔
          dlookup k g.patterns = none ∧ occTotal sentences k = 0) ∧
        (statsOfMap (sentences.foldl GrammarState.observeSentence g).patterns k).realizations =
          (realStream sentences k).foldl
            (fun s r => if r.isEmpty then s else setAdd s r)
            (statsOfMap g.patterns k).realizations ∧
        (sentences.foldl GrammarState.observeSentence g).minCountSeen = g.minCountSeen ∧
        (sentences.foldl GrammarState.observeSentence g).minDistinctSentenceCount =
          g.minDistinctSentenceCount := by
  induction sentences with
  | nil =>
    intro g
    refine ⟨by simp [occTotal], by simp [sentCount], by simp [occTotal], ?_, rfl, rfl⟩
    simp [realStream]
  | cons s rest ih =>
    intro g
    obtain ⟨e1, e2, e3, e4, e5, e6⟩ := observeSentence_effect g s k
    obtain ⟨i1, i2, i3, i4, i5, i6⟩ := ih (g.observeSentence s)
    rw [List.foldl_cons]
    have hocc : occTotal (s :: rest) k = occCountIn s k + occTotal rest k := by
      unfold occTotal
      simp
    have hsent : sentCount (s :: rest) k =
        (if 0 < occCountIn s k then 1 else 0) + sentCount rest k := by
      unfold sentCount
      rw [List.filter_cons]
      by_cases ha : (s.any fun kr => decide (kr.1 = k)) = true
      · rw [if_pos ha, if_pos ((occCountIn_pos_iff_any s k).2 ha)]
        simp [Nat.add_comm]
      · rw [if_neg (by simpa using ha),
          if_neg (fun hpos => ha ((occCountIn_pos_iff_any s k).1 hpos))]
        simp
    refine ⟨?_, ?_, ?_, ?_, by rw [i5, e5], by rw [i6, e6]⟩
    · rw [i1, e1, hocc]
      omega
    · rw [i2, e2, hsent]
      omega
    · rw [i3, e3, hocc]
      constructor
      · rintro ⟨⟨h1, h2⟩, h3⟩
        exact ⟨h1, by omega⟩
      · rintro ⟨h1, h2⟩
        exact ⟨⟨h1, by omega⟩, by omega⟩
    · rw [i4, e4]
      unfold realStream
      rw [List.flatMap_cons, List.foldl_append]

theorem isEmerged_iff (g : GrammarState) (k : Str) :
    ((g.isEmerged k).1 = true) ↔
      (dlookup k g.patterns ≠ none ∧
        g.minCountSeen ≤ (statsOfMap g.patterns k).countSeen ∧
        g.minDistinctSentenceCount ≤
          (statsOfMap g.patterns k).distinctSentenceCount) := by
  unfold GrammarState.isEmerged
  rcases hl : dlookup k g.patterns with _ | st
  · simp
  · have hst : statsOfMap g.patterns k = st := by
      unfold statsOfMap
      rw [hl]
      rfl
    rw [hst]
    unfold PatternStats.emerged
    simp

/-- C2 (amended): after any corpus of `observe_sentence` calls a key is
emerged iff it was observed at least once and its total occurrence count and
distinct-sentence count reach the thresholds; the two default-threshold
examples of the claim hold. -/
theorem claim_C2 :
    (∀ (mc md : ℕ) (sentences : List (List (Str × Str))) (k : Str),
      ((runState mc md sentences).isEmerged k).1 = true ↔
        (0 < occTotal sentences k ∧ mc ≤ occTotal sentences k ∧
          md ≤ sentCount sentences k)) ∧
      ((runState 3 2 [List.replicate 10 ("k".data, "r".data)]).isEmerged
          "k".data).1 = false ∧
      ((runState 3 2 [[("k".data, "a".data)], [("k".data, "b".data)],
          [("k".data, "c".data)]]).isEmerged "k".data).1 = true := by
  refine ⟨?_, by decide, by decide⟩
  intro mc md sentences k
  obtain ⟨h1, h2, h3, _, h5, h6⟩ :=
    foldState_effect k sentences (GrammarState.init mc md)
  rw [isEmerged_iff]
  unfold runState
  have hcs : (statsOfMap (sentences.foldl GrammarState.observeSentence
      (GrammarState.init mc md)).patterns k).countSeen = occTotal sentences k := by
    rw [h1]
    simp [statsOfMap, dlookup, GrammarState.init, PatternStats.init]
  have hds : (statsOfMap (sentences.foldl GrammarState.observeSentence
      (GrammarState.init mc md)).patterns k).distinctSentenceCount =
        sentCount sentences k := by
    rw [h2]
    simp [statsOfMap, dlookup, GrammarState.init, PatternStats.init]
  have hmc : (sentences.foldl GrammarState.observeSentence
      (GrammarState.init mc md)).minCountSeen = mc := h5
  have hmd : (sentences.foldl GrammarState.observeSentence
      (GrammarState.init mc md)).minDistinctSentenceCount = md := h6
  have hne : dlookup k (sentences.foldl GrammarState.observeSentence
      (GrammarState.init mc md)).patterns ≠ none ↔ 0 < occTotal sentences k := by
    rw [Ne, h3]
    constructor
    · intro h
      by_contra hz
      exact h ⟨rfl, by omega⟩
    · rintro hpos ⟨_, h0⟩
      omega
  rw [hcs, hds, hmc, hmd, hne]

/-- C2 as stated fails when both thresholds are zero: a key never observed has
occurrence count 0 ≥ 0 and distinct-sentence count 0 ≥ 0, yet `is_emerged`
returns `False` for it. -/
theorem claim_C2_counterexample :
    ¬ (((runState 0 0 []).isEmerged "k".data).1 = true ↔
      (0 ≤ occTotal [] "k".data ∧ 0 ≤ sentCount [] "k".data)) := by
  decide

theorem claim_C2_witness :
    ((runState 3 2 [[("k".data, "a".data)], [("k".data, "b".data)],
        [("k".data, "c".data)]]).isEmerged "k".data).1 = true ↔
      (0 < occTotal [[("k".data, "a".data)], [("k".data, "b".data)],
          [("k".data, "c".data)]] "k".data ∧
        3 ≤ occTotal [[("k".data, "a".data)], [("k".data, "b".data)],
          [("k".data, "c".data)]] "k".data ∧
        2 ≤ sentCount [[("k".data, "a".data)], [("k".data, "b".data)],
          [("k".data, "c".data)]] "k".data) :=
  claim_C2.1 3 2 [[("k".data, "a".data)], [("k".data, "b".data)],
    [("k".data, "c".data)]] "k".data

/-- C10: querying emergence of a key never observed returns `False` and
leaves the state bit-for-bit unchanged — in particular no fresh zero-count
entry is created in the pattern dict, because `is_emerged` reads with
`dict.get`, not defaultdict indexing. -/
theorem claim_C10 (mc md : ℕ) (sentences : List (List (Str × Str))) (k : Str)
    (h : ∀ s ∈ sentences, ∀ kr ∈ s, kr.1 ≠ k) :
    (runState mc md sentences).isEmerged k = (false, runState mc md sentences) ∧
      dlookup k (runState mc md sentences).patterns = none := by
  obtain ⟨_, _, h3, _, _, _⟩ :=
    foldState_effect k sentences (GrammarState.init mc md)
  have hocc : occTotal sentences k = 0 := by
    unfold occTotal
    rw [List.sum_eq_zero]
    intro x hx
    rcases List.mem_map.1 hx with ⟨s, hs, rfl⟩
    unfold occCountIn
    rw [List.length_eq_zero, List.filter_eq_nil_iff]
    intro kr hkr
    simp [h s hs kr hkr]
  have hnone : dlookup k (runState mc md sentences).patterns = none := by
    unfold runState
    exact h3.2 ⟨rfl, hocc⟩
  refine ⟨?_, hnone⟩
  unfold GrammarState.isEmerged
  rw [hnone]

theorem claim_C10_witness :
    (runState 3 2 [[("a".data, "x".data)]]).isEmerged "b".data =
        (false, runState 3 2 [[("a".data, "x".data)]]) ∧
      dlookup "b".data (runState 3 2 [[("a".data, "x".data)]]).patterns = none :=
  claim_C10 3 2 [[("a".data, "x".data)]] "b".data (by decide)

/-! ## build_prior_db.py : capped realization sampling of the global
aggregator, and C4 -/

/-- State of one key in `realizations_cache`: absent, an active tracking set,
or the `None` sentinel meaning the cap was reached. -/
inductive RealCache
  | missing
  | active (s : List Str)
  | full
deriving DecidableEq

/-- One key's sampling state: its cache entry plus the realizations inserted
into `pattern_global_realizations` (`INSERT OR IGNORE`). -/
structure RealBox where
  cache : RealCache
  stored : List Str
deriving DecidableEq

def RealBox.init : RealBox := ⟨RealCache.missing, []⟩

/-- The shared tail of `maybe_add_realization` once the tracking set `s` for
the key is at hand (a fresh empty set when the key was missing). -/
def maybeAddCore (cap : ℤ) (stored s : List Str) (r : Str) : RealBox :=
  if cap ≤ (s.length : ℤ) then ⟨RealCache.full, stored⟩
  else if r ∈ s then ⟨RealCache.active s, stored⟩
  else
    let stored2 := if r ∈ stored then stored else stored ++ [r]
    let s2 := s ++ [r]
    if cap ≤ (s2.length : ℤ) then ⟨RealCache.full, stored2⟩
    else ⟨RealCache.active s2, stored2⟩

/-- `maybe_add_realization` restricted to one pattern key. -/
def maybeAddRealization (cap : ℤ) (b : RealBox) (r : Str) : RealBox :=
  if cap ≤ 0 then b
  else match b.cache with
  | RealCache.full => b
  | RealCache.missing => maybeAddCore cap b.stored [] r
  | RealCache.active s0 => maybeAddCore cap b.stored s0 r

/-- Invariant tying the cache entry to the stored sample, for a positive cap. -/
def BoxInv (cap : ℤ) (b : RealBox) : Prop :=
  match b.cache with
  | RealCache.missing => b.stored = []
  | RealCache.active s0 => b.stored = s0 ∧ (s0.length : ℤ) < cap
  | RealCache.full => (b.stored.length : ℤ) ≤ cap

theorem boxInv_init (cap : ℤ) : BoxInv cap RealBox.init := rfl

theorem boxInv_core (cap : ℤ) (_hcap : 0 < cap) (s : List Str) (r : Str)
    (hlen : (s.length : ℤ) < cap) :
    BoxInv cap (maybeAddCore cap s s r) := by
  unfold maybeAddCore
  rw [if_neg (by omega)]
  by_cases hr : r ∈ s
  · rw [if_pos hr]
    unfold BoxInv
    exact ⟨rfl, hlen⟩
  · rw [if_neg hr, if_neg hr]
    by_cases h1 : cap ≤ ((s ++ [r]).length : ℤ)
    · rw [if_pos h1]
      unfold BoxInv
      simp only []
      simp at h1 ⊢
      omega
    · rw [if_neg h1]
      unfold BoxInv
      refine ⟨rfl, ?_⟩
      simp at h1 ⊢
      omega

theorem boxInv_step (cap : ℤ) (hcap : 0 < cap) (b : RealBox) (r : Str)
    (h : BoxInv cap b) : BoxInv cap (maybeAddRealization cap b r) := by
  unfold maybeAddRealization
  rw [if_neg (by omega)]
  unfold BoxInv at h
  rcases hc : b.cache with _ | s0 | _ <;> rw [hc] at h
  · rw [h]
    exact boxInv_core cap hcap [] r (by simp; omega)
  · rw [h.1]
    exact boxInv_core cap hcap s0 r h.2
  · unfold BoxInv
    rw [hc]
    exact h

theorem boxInv_length (cap : ℤ) (hcap : 0 < cap) (b : RealBox)
    (h : BoxInv cap b) : (b.stored.length : ℤ) ≤ cap := by
  unfold BoxInv at h
  rcases hc : b.cache with _ | s0 | _ <;> rw [hc] at h
  · rw [h]; simp; omega
  · rw [h.1]; omega
  · exact h

theorem boxInv_fold (cap : ℤ) (hcap : 0 < cap) (rs : List Str) :
    BoxInv cap (rs.foldl (maybeAddRealization cap) RealBox.init) := by
  have hgen : ∀ b, BoxInv cap b →
      BoxInv cap (rs.foldl (maybeAddRealization cap) b) := by
    induction rs with
    | nil => intro b hb; exact hb
    | cons r rs ih =>
      intro b hb
      exact ih _ (boxInv_step cap hcap b r hb)
  exact hgen RealBox.init (boxInv_init cap)

theorem maybeAdd_stuck (cap : ℤ) (hcap : 0 < cap) (b : RealBox) (r : Str)
    (h : BoxInv cap b) (hfull : (b.stored.length : ℤ) = cap) :
    maybeAddRealization cap b r = b := by
  unfold BoxInv at h
  rcases hc : b.cache with _ | s0 | _ <;> rw [hc] at h
  · rw [h] at hfull; simp at hfull; omega
  · rw [h.1] at hfull
    have := h.2
    omega
  · unfold maybeAddRealization
    rw [if_neg (by omega), hc]

theorem maybeAddCore_stored_mono (cap : ℤ) (stored s : List Str) (r : Str) :
    stored.length ≤ (maybeAddCore cap stored s r).stored.length := by
  unfold maybeAddCore
  by_cases h1 : cap ≤ (s.length : ℤ)
  · rw [if_pos h1]
  · rw [if_neg h1]
    by_cases h2 : r ∈ s
    · rw [if_pos h2]
    · rw [if_neg h2]
      simp only []
      by_cases h3 : r ∈ stored
      · rw [if_pos h3]
        split_ifs <;> simp
      · rw [if_neg h3]
        split_ifs <;> simp

theorem maybeAdd_stored_mono (cap : ℤ) (b : RealBox) (r : Str) :
    b.stored.length ≤ (maybeAddRealization cap b r).stored.length := by
  unfold maybeAddRealization
  by_cases h0 : cap ≤ 0
  · rw [if_pos h0]
  · rw [if_neg h0]
    rcases hc : b.cache with _ | s0 | _
    · exact maybeAddCore_stored_mono cap b.stored [] r
    · exact maybeAddCore_stored_mono cap b.stored s0 r
    · exact le_refl _

theorem mem_setAdd (s : List Str) (x r : Str) :
    r ∈ setAdd s x ↔ (r = x ∨ r ∈ s) := by
  unfold setAdd
  by_cases h : x ∈ s
  · rw [if_pos h]
    constructor
    · intro hr; exact Or.inr hr
    · rintro (rfl | hr)
      · exact h
      · exact hr
  · rw [if_neg h]
    simp

theorem nodup_setAdd (s : List Str) (x : Str) (h : s.Nodup) :
    (setAdd s x).Nodup := by
  unfold setAdd
  by_cases hx : x ∈ s
  · rw [if_pos hx]; exact h
  · rw [if_neg hx]; exact List.nodup_cons.2 ⟨hx, h⟩

theorem mem_addFold (rs : List Str) :
    ∀ (acc : List Str) (r : Str),
      r ∈ rs.foldl (fun s r2 => if r2.isEmpty then s else setAdd s r2) acc ↔
        (r ∈ acc ∨ (r ∈ rs ∧ r.isEmpty = false)) := by
  induction rs with
  | nil => intro acc r; simp
  | cons x rs ih =>
    intro acc r
    rw [List.foldl_cons]
    by_cases hx : x.isEmpty
    · rw [if_pos hx, ih]
      constructor
      · rintro (h | ⟨h1, h2⟩)
        · exact Or.inl h
        · exact Or.inr ⟨List.mem_cons_of_mem x h1, h2⟩
      · rintro (h | ⟨h1, h2⟩)
        · exact Or.inl h
        · rcases List.mem_cons.1 h1 with rfl | h1
          · rw [hx] at h2; cases h2
          · exact Or.inr ⟨h1, h2⟩
    · rw [if_neg hx, ih]
      constructor
      · rintro (h | ⟨h1, h2⟩)
        · rcases (mem_setAdd acc x r).1 h with rfl | h
          · exact Or.inr ⟨by simp, by simpa using hx⟩
          · exact Or.inl h
        · exact Or.inr ⟨List.mem_cons_of_mem x h1, h2⟩
      · rintro (h | ⟨h1, h2⟩)
        · exact Or.inl ((mem_setAdd acc x r).2 (Or.inr h))
        · rcases List.mem_cons.1 h1 with heq | h1
          · exact Or.inl ((mem_setAdd acc x r).2 (Or.inl heq))
          · exact Or.inr ⟨h1, h2⟩

theorem nodup_addFold (rs : List Str) :
    ∀ acc : List Str, acc.Nodup →
      (rs.foldl (fun s r2 => if r2.isEmpty then s else setAdd s r2) acc).Nodup := by
  induction rs with
  | nil => intro acc h; exact h
  | cons x rs ih =>
    intro acc h
    rw [List.foldl_cons]
    by_cases hx : x.isEmpty
    · rw [if_pos hx]; exact ih acc h
    · rw [if_neg hx]; exact ih _ (nodup_setAdd acc x h)

theorem mem_realStream (sentences : List (List (Str × Str))) (k r : Str) :
    r ∈ realStream sentences k ↔ ∃ s ∈ sentences, (k, r) ∈ s := by
  unfold realStream
  rw [List.mem_flatMap]
  constructor
  · rintro ⟨s, hs, hr⟩
    rcases List.mem_map.1 hr with ⟨kr, hkr, rfl⟩
    rw [List.mem_filter] at hkr
    have h1 : kr.1 = k := by simpa using hkr.2
    refine ⟨s, hs, ?_⟩
    have : kr = (k, kr.2) := by
      rw [← h1]
    rw [← this]
    exact hkr.1
  · rintro ⟨s, hs, hkr⟩
    refine ⟨s, hs, ?_⟩
    refine List.mem_map.2 ⟨(k, r), ?_, rfl⟩
    rw [List.mem_filter]
    exact ⟨hkr, by simp⟩

/-- C4 (amended): the personal state caps nothing — its per-key realization
set is exactly the set of distinct non-empty realizations observed, growing
without bound — while the capped-sample invariant holds in the global
aggregator (`maybe_add_realization`): the stored sample never exceeds a
positive cap, never shrinks, and once it reaches the cap no observation
changes the state. -/
theorem claim_C4 :
    (∀ (cap : ℤ) (rs : List Str), 0 < cap →
      (((rs.foldl (maybeAddRealization cap) RealBox.init).stored.length : ℤ) ≤ cap)) ∧
      (∀ (cap : ℤ) (rs : List Str) (r : Str), 0 < cap →
        (((rs.foldl (maybeAddRealization cap) RealBox.init).stored.length : ℤ) = cap) →
        (rs ++ [r]).foldl (maybeAddRealization cap) RealBox.init =
          rs.foldl (maybeAddRealization cap) RealBox.init) ∧
      (∀ (cap : ℤ) (b : RealBox) (r : Str),
        b.stored.length ≤ (maybeAddRealization cap b r).stored.length) ∧
      (∀ (mc md : ℕ) (sentences : List (List (Str × Str))) (k : Str),
        ((statsOfMap (runState mc md sentences).patterns k).realizations).Nodup ∧
        ∀ r, r ∈ (statsOfMap (runState mc md sentences).patterns k).realizations ↔
          (r.isEmpty = false ∧ ∃ s ∈ sentences, (k, r) ∈ s)) := by
  refine ⟨?_, ?_, maybeAdd_stored_mono, ?_⟩
  · intro cap rs hcap
    exact boxInv_length cap hcap _ (boxInv_fold cap hcap rs)
  · intro cap rs r hcap hfull
    rw [List.foldl_append, List.foldl_cons, List.foldl_nil]
    exact maybeAdd_stuck cap hcap _ r (boxInv_fold cap hcap rs) hfull
  · intro mc md sentences k
    obtain ⟨_, _, _, h4, _, _⟩ :=
      foldState_effect k sentences (GrammarState.init mc md)
    have hinit : (statsOfMap (GrammarState.init mc md).patterns k).realizations = [] := rfl
    unfold runState
    rw [h4, hinit]
    constructor
    · exact nodup_addFold _ [] List.nodup_nil
    · intro r
      rw [mem_addFold, mem_realStream]
      simp [and_comm]

/-- C4 as stated fails on the personal state: there is no cap — 30 distinct
realizations are all stored, and a 31st observation still grows the stored
set (so it does not stay at any cap such as the documented global default of
30). -/
theorem claim_C4_counterexample :
    ((statsOfMap (runState 3 2
        [(List.range 30).map fun i => ("k".data, natStr i)]).patterns
        "k".data).realizations).length = 30 ∧
      ((statsOfMap (runState 3 2
        [(List.range 31).map fun i => ("k".data, natStr i)]).patterns
        "k".data).realizations).length = 31 := by
  decide

theorem claim_C4_witness :
    ((((["a".data, "b".data, "c".data].foldl (maybeAddRealization 2)
        RealBox.init).stored.length : ℤ) ≤ 2) ∧
      (["a".data, "b".data, "c".data] ++ ["d".data]).foldl
          (maybeAddRealization 2) RealBox.init =
        ["a".data, "b".data, "c".data].foldl (maybeAddRealization 2)
          RealBox.init) :=
  ⟨claim_C4.1 2 ["a".data, "b".data, "c".data] (by decide),
    claim_C4.2.1 2 ["a".data, "b".data, "c".data] "d".data (by decide) (by decide)⟩

/-! ## build_prior_db.py : the final p_global computation (C7) -/

/-- The corpus-wide `count_sentences` table: per sentence, one increment for
each distinct pattern key of that sentence (`count_sent_batch`, flushed
additively into `pattern_global_stats`). -/
def globalSentCounts (sentences : List (List Str)) : List (Str × ℕ) :=
  sentences.foldl
    (fun m s =>
      (s.dedup).foldl (fun m2 k => dset k ((dlookup k m2).getD 0 + 1) m2) m)
    []

/-- `SELECT SUM(count_sentences)`. -/
def totalDfSum (m : List (Str × ℕ)) : ℕ := (m.map Prod.snd).sum

/-- The one-shot `UPDATE` computing `p_global` over the final totals:
`count_sentences / total` when the total is positive, all zero otherwise. -/
def computePGlobal (m : List (Str × ℕ)) : List (Str × ℚ) :=
  if 0 < totalDfSum m then
    m.map fun kv => (kv.1, (kv.2 : ℚ) / (totalDfSum m : ℚ))
  else m.map fun kv => (kv.1, 0)

theorem sum_map_div (l : List ℕ) (T : ℚ) :
    (l.map fun c : ℕ => (c : ℚ) / T).sum = ((l.sum : ℚ)) / T := by
  induction l with
  | nil => simp
  | cons c l ih =>
    rw [List.map_cons, List.sum_cons, ih, List.sum_cons]
    push_cast
    rw [add_div]

/-- C7: after the corpus pass, p_global is count_sentences over the grand
total, so the p_global column sums to exactly 1 when the total is positive
and is identically zero when the total is zero. -/
theorem claim_C7 (sentences : List (List Str)) :
    (0 < totalDfSum (globalSentCounts sentences) →
      ((computePGlobal (globalSentCounts sentences)).map Prod.snd).sum = 1) ∧
      (totalDfSum (globalSentCounts sentences) = 0 →
        ∀ kv ∈ computePGlobal (globalSentCounts sentences), kv.2 = 0) ∧
      (∀ kv ∈ computePGlobal (globalSentCounts sentences), ∃ c : ℕ,
        (kv.1, c) ∈ globalSentCounts sentences ∧
          kv.2 = (if 0 < totalDfSum (globalSentCounts sentences)
            then (c : ℚ) / (totalDfSum (globalSentCounts sentences) : ℚ)
            else 0)) := by
  refine ⟨?_, ?_, ?_⟩
  · intro hpos
    unfold computePGlobal
    rw [if_pos hpos, List.map_map]
    have hmaps : (Prod.snd ∘ fun kv : Str × ℕ =>
        (kv.1, (kv.2 : ℚ) / (totalDfSum (globalSentCounts sentences) : ℚ))) =
        fun kv : Str × ℕ =>
          (kv.2 : ℚ) / (totalDfSum (globalSentCounts sentences) : ℚ) := rfl
    rw [hmaps]
    have hcomp : ((globalSentCounts sentences).map fun kv : Str × ℕ =>
        (kv.2 : ℚ) / (totalDfSum (globalSentCounts sentences) : ℚ)) =
        (((globalSentCounts sentences).map Prod.snd).map fun c : ℕ =>
          (c : ℚ) / (totalDfSum (globalSentCounts sentences) : ℚ)) := by
      rw [List.map_map]
      rfl
    rw [hcomp, sum_map_div]
    have htot : ((globalSentCounts sentences).map Prod.snd).sum =
        totalDfSum (globalSentCounts sentences) := rfl
    rw [htot]
    have hne : ((totalDfSum (globalSentCounts sentences) : ℚ)) ≠ 0 := by
      have hq : (0 : ℚ) < (totalDfSum (globalSentCounts sentences) : ℚ) := by
        exact_mod_cast hpos
      exact ne_of_gt hq
    rw [div_self hne]
  · intro hzero
    unfold computePGlobal
    rw [if_neg (by omega)]
    intro kv hkv
    rcases List.mem_map.1 hkv with ⟨kv0, _, rfl⟩
    rfl
  · intro kv hkv
    unfold computePGlobal at hkv
    by_cases hpos : 0 < totalDfSum (globalSentCounts sentences)
    · rw [if_pos hpos] at hkv
      rcases List.mem_map.1 hkv with ⟨kv0, hkv0, rfl⟩
      refine ⟨kv0.2, ?_, by rw [if_pos hpos]⟩
      simpa using hkv0
    · rw [if_neg hpos] at hkv
      rcases List.mem_map.1 hkv with ⟨kv0, hkv0, rfl⟩
      refine ⟨kv0.2, ?_, by rw [if_neg hpos]⟩
      simpa using hkv0

theorem claim_C7_witness :
    ((computePGlobal (globalSentCounts
        [["a".data], ["a".data, "b".data]])).map Prod.snd).sum = 1 :=
  (claim_C7 [["a".data], ["a".data, "b".data]]).1 (by decide)

end ZhPipeline
